import Mathlib

/-!
Shallow embedding of the openfhe-pim repository core
(pim-hexl host runtime: MRAM allocator, device manager, distributed
vector, kernel dispatch, distributed NTT orchestration), together with
theorems settling the specification claims.

Machine integers (uint32_t/uint64_t) are modelled as Nat; wherever the C
code relies on wraparound the reduction modulo 2^64 is written explicitly,
and wherever a definition is only exercised on arguments where no wrap can
occur this is recorded in its doc comment.
-/

namespace OpenFHEPim

/-- Modulus of the 64-bit machine words used by the device. -/
def U64 : ℕ := 2 ^ 64

/-! ## Number theory utilities (src/third-party/pim-hexl/src/utils/number-theory.h) -/

/-- Loop body of the source's shift-and-add `mul_mod_u64`, written with an
explicit fuel counter (each iteration halves `a`, so fuel `a` covers every
iteration of the `while (a)` loop).  The C routine keeps `result` and `b`
below `m` provided the initial `b < m` (every call site in the repository
passes `b < m`), so the unsigned subtractions `m - b` never wrap and Nat
subtraction is an exact translation. -/
def mulModLoop (m : ℕ) : ℕ → ℕ → ℕ → ℕ → ℕ
  | 0, _, _, result => result
  | fuel + 1, a, b, result =>
    if a = 0 then result
    else
      let result2 :=
        if a % 2 = 1 then (if result ≥ m - b then result - (m - b) else result + b) else result
      let b2 := if b ≥ m - b then b - (m - b) else b + b
      mulModLoop m fuel (a / 2) b2 result2

/-- Translation of `mul_mod_u64` from number-theory.h: overflow-free
modular multiplication by binary expansion of `a`. -/
def mul_mod_u64 (a b m : ℕ) : ℕ := mulModLoop m a a b 0

/-- Loop of `pow_mod_u64` (the `__uint128_t` branch, taken on the host),
with fuel `exp` covering every iteration of the halving loop: `acc` and
`b` stay below `mod`, products stay below `2^128`, so Nat arithmetic is
exact. -/
def powModLoop (mod : ℕ) : ℕ → ℕ → ℕ → ℕ → ℕ
  | 0, acc, _, _ => acc
  | fuel + 1, acc, b, exp =>
    if exp = 0 then acc
    else powModLoop mod fuel (if exp % 2 = 1 then acc * b % mod else acc) (b * b % mod) (exp / 2)

/-- Translation of `pow_mod_u64` from number-theory.h. -/
def pow_mod_u64 (base exp mod : ℕ) : ℕ := powModLoop mod exp 1 (base % mod) exp

/-- Loop of `inverse_mod_u64` (extended Euclid on unsigned 64-bit words),
with fuel `m + 1` covering every iteration since `b` strictly decreases.
State is `(a, b, u, v)`; the update `u - t*v` is performed on uint64_t and
wraps, which the translation makes explicit modulo `U64`. -/
def egcdLoop : ℕ → ℕ → ℕ → ℕ → ℕ → ℕ × ℕ
  | 0, a, _, u, _ => (a, u)
  | fuel + 1, a, b, u, v =>
    if b = 0 then (a, u)
    else
      let t := a / b
      egcdLoop fuel b (a % b) v ((u + U64 - (t * v) % U64) % U64)

/-- Translation of `inverse_mod_u64` from number-theory.h, including the
final `(u + m) % m` applied to the (possibly wrapped) cofactor; the
uint64 addition `u + m` itself wraps modulo `2^64` before the reduction
by `m`, which the translation makes explicit. -/
def inverse_mod_u64 (a m : ℕ) : ℕ :=
  let p := egcdLoop (m + 1) a m 1 0
  if p.1 ≠ 1 then 0 else (p.2 + m) % U64 % m

/-- Halving loop computing the floor base-2 logarithm (fuel `n` covers
every halving). -/
def ilog2Loop : ℕ → ℕ → ℕ
  | 0, _ => 0
  | fuel + 1, n => if n ≥ 2 then ilog2Loop fuel (n / 2) + 1 else 0

/-- Translation of `ilog2` (`31 - clz(n)`), i.e. the floor base-2
logarithm, for arguments `1 ≤ n < 2^32`. -/
def ilog2 (n : ℕ) : ℕ := ilog2Loop n n

/-- Loop of `bitrev`: `r = (r << 1) | (x & 1)` — the or is an addition
because the shifted `r` has low bit zero. -/
def bitrevLoop (r x : ℕ) : ℕ → ℕ
  | 0 => r
  | i + 1 => bitrevLoop (2 * r + x % 2) (x / 2) i

/-- Translation of `bitrev` from number-theory.h. -/
def bitrev (x logn : ℕ) : ℕ := bitrevLoop 0 x logn

/-- Loop of `find_root`: candidate generators `g = 2, 3, ...` up to `p`;
fuel `p` covers every iteration of the source loop. -/
def findRootLoop (N p step : ℕ) : ℕ → ℕ → ℕ
  | 0, _ => 0
  | fuel + 1, g =>
    if g < p then
      let w := pow_mod_u64 g step p
      if pow_mod_u64 w N p = 1 ∧ pow_mod_u64 w (N / 2) p ≠ 1 then w
      else findRootLoop N p step fuel (g + 1)
    else 0

/-- Translation of `find_root` from number-theory.h. -/
def find_root (N p : ℕ) : ℕ := findRootLoop N p ((p - 1) / N) p 2

/-- Translation of `butterfly_u64` from number-theory.h (`twoq = q << 1`;
inputs at every call site are `< q`, so no uint64 wrap occurs). -/
def butterfly_u64 (x y w q : ℕ) : ℕ × ℕ :=
  let t := mul_mod_u64 y w q
  let u := x
  let a := if u + t ≥ 2 * q then u + t - 2 * q else u + t
  let b := if u ≥ t then u - t else u + 2 * q - t
  (if a ≥ q then a - q else a, if b ≥ q then b - q else b)

/-! ## MRAM allocator (mram_allocator.hpp, src/unnamed/part_002 lines 901-1039) -/

/-- Translation of `align_up(x, a) = (x + a - 1) & ~(a - 1)`; for the
power-of-two alignments used in the source this equals rounding up to a
multiple of `a`. -/
def align_up (x a : ℕ) : ℕ := (x + a - 1) / a * a

/-- The `std::map<uint32_t, size_t> free_` of the allocator: an
association list kept sorted by strictly increasing key, mirroring the
map's in-order iteration. -/
abbrev FM := List (ℕ × ℕ)

/-- `free_.find(k)`: exact-key lookup. -/
def fmFind : FM → ℕ → Option ℕ
  | [], _ => none
  | (o, z) :: t, k => if o = k then some z else fmFind t k

/-- `free_.erase(k)`: remove the entry with key `k` (keys are unique). -/
def fmErase : FM → ℕ → FM
  | [], _ => []
  | (o, z) :: t, k => if o = k then t else (o, z) :: fmErase t k

/-- Assignment `free_[k] = v` on the sorted representation: insert, or
overwrite an existing entry with the same key. -/
def fmAssign : FM → ℕ → ℕ → FM
  | [], k, v => [(k, v)]
  | (o, z) :: t, k, v =>
    if k < o then (k, v) :: (o, z) :: t
    else if k = o then (k, v) :: t
    else (o, z) :: fmAssign t k v

/-- The entry preceding `lower_bound(k)`, i.e. the last entry whose key is
`< k`; mirrors the `prv != begin && (--prv)` step of `free`. -/
def fmPred : FM → ℕ → Option (ℕ × ℕ)
  | [], _ => none
  | (o, z) :: t, k => if o < k then some ((fmPred t k).getD (o, z)) else none

/-- First-fit scan of `alloc`: the first block (in key order, as iterated
by `std::map`) whose size is at least the request. -/
def fmFirstFit : FM → ℕ → Option (ℕ × ℕ)
  | [], _ => none
  | (o, z) :: t, bytes => if z ≥ bytes then some (o, z) else fmFirstFit t bytes

/-- State of one `MramAllocator`: bump pointer `cur_`, capacity `limit_`
and the free-block map `free_`. -/
structure MramAllocator where
  cur_ : ℕ
  limit_ : ℕ
  free_ : FM
deriving DecidableEq

/-- Errors thrown by `alloc`: `std::bad_alloc` on exhaustion and the
"Corrupted allocator" runtime errors. -/
inductive AllocErr
  | badAlloc
  | corrupted
deriving DecidableEq

/-- Fresh allocator with the default 64 MiB limit
(`MramAllocator(size_t limit = 64ull << 20)`). -/
def MramAllocator.new : MramAllocator := ⟨0, 64 * 2 ^ 20, []⟩

/-- Translation of `MramAllocator::alloc` (part_002 lines 937-969):
align the request, first-fit from the free map (splitting off any
remainder), otherwise bump-allocate, with the capacity and corruption
checks of the source. -/
def MramAllocator.alloc (st : MramAllocator) (bytes0 : ℕ) : Except AllocErr (MramAllocator × ℕ) :=
  let bytes := align_up bytes0 8
  match fmFirstFit st.free_ bytes with
  | some (off, sz) =>
    let fr := fmErase st.free_ off
    let fr := if sz - bytes ≠ 0 then fmAssign fr (off + bytes) (sz - bytes) else fr
    if off > st.limit_ then .error .corrupted
    else .ok ({ st with free_ := fr }, off)
  | none =>
    if st.cur_ + bytes > st.limit_ then .error .badAlloc
    else if st.cur_ > st.limit_ then .error .corrupted
    else .ok ({ st with cur_ := st.cur_ + bytes }, st.cur_)

/-- Translation of `MramAllocator::free` (part_002 lines 976-1008):
align the size, silently ignore out-of-capacity frees and double frees,
insert the block, then coalesce with the following and preceding blocks
when adjacent. -/
def MramAllocator.free (st : MramAllocator) (off bytes0 : ℕ) : MramAllocator :=
  let bytes := align_up bytes0 8
  if off > st.limit_ ∨ off + bytes > st.limit_ then st
  else if (fmFind st.free_ off).isSome then st
  else
    let fr1 := fmAssign st.free_ off bytes
    let merged :=
      match fmFind fr1 (off + bytes) with
      | some nsz => (fmAssign (fmErase fr1 (off + bytes)) off (bytes + nsz), bytes + nsz)
      | none => (fr1, bytes)
    let fr3 :=
      match fmPred merged.1 off with
      | some pe => if pe.1 + pe.2 = off then fmAssign (fmErase merged.1 off) pe.1 (pe.2 + merged.2) else merged.1
      | none => merged.1
    { st with free_ := fr3 }

/-- Translation of `MramAllocator::reset`. -/
def MramAllocator.reset (st : MramAllocator) : MramAllocator :=
  { st with cur_ := 0, free_ := [] }

/-- Well-formedness of the free map as maintained by `std::map` plus the
allocator's invariants: keys strictly increase, block sizes are positive
and consecutive blocks do not overlap. -/
def fmWF : FM → Bool
  | [] => true
  | (o, z) :: t =>
    decide (0 < z) &&
      (match t with
       | [] => true
       | (o2, _) :: _ => decide (o + z ≤ o2)) &&
      fmWF t

/-- Predicate picking the free-map entries that span the whole byte range
`[a, a + len)`. -/
def spansBoth (a len : ℕ) (e : ℕ × ℕ) : Bool :=
  decide (e.1 ≤ a) && decide (a + len ≤ e.1 + e.2)

/-- Number of free-map entries spanning the byte range `[a, a + len)`. -/
def spanCount (fm : FM) (a len : ℕ) : ℕ :=
  (fm.filter (spansBoth a len)).length

/-! ### Lemmas about the free-map operations -/

theorem fmFind_eq_none {l : FM} {k : ℕ} (h : ∀ e ∈ l, e.1 ≠ k) : fmFind l k = none := by
  induction l with
  | nil => rfl
  | cons e t ih =>
    obtain ⟨o, z⟩ := e
    have ho : o ≠ k := h (o, z) (List.mem_cons_self _ _)
    simp only [fmFind, if_neg ho]
    exact ih fun e he => h e (List.mem_cons_of_mem _ he)

theorem fmFind_append_cons {L R : FM} {k v : ℕ} (hL : ∀ e ∈ L, e.1 ≠ k) :
    fmFind (L ++ (k, v) :: R) k = some v := by
  induction L with
  | nil => simp [fmFind]
  | cons e t ih =>
    obtain ⟨o, z⟩ := e
    have ho : o ≠ k := hL (o, z) (List.mem_cons_self _ _)
    simp only [List.cons_append, fmFind, if_neg ho]
    exact ih fun e he => hL e (List.mem_cons_of_mem _ he)

theorem fmAssign_append {L R : FM} {k v : ℕ} (hL : ∀ e ∈ L, e.1 < k)
    (hR : ∀ e ∈ R, k < e.1) : fmAssign (L ++ R) k v = L ++ (k, v) :: R := by
  induction L with
  | nil =>
    cases R with
    | nil => rfl
    | cons r t =>
      obtain ⟨o, z⟩ := r
      have : k < o := hR (o, z) (List.mem_cons_self _ _)
      simp [fmAssign, this]
  | cons e t ih =>
    obtain ⟨o, z⟩ := e
    have ho : o < k := hL (o, z) (List.mem_cons_self _ _)
    have h1 : ¬ k < o := Nat.not_lt.mpr (Nat.le_of_lt ho)
    have h2 : k ≠ o := Nat.ne_of_gt ho
    simp only [List.cons_append, fmAssign, if_neg h1, if_neg h2, List.cons.injEq, true_and]
    exact ih fun e he => hL e (List.mem_cons_of_mem _ he)

theorem fmAssign_replace {L R : FM} {k v z0 : ℕ} (hL : ∀ e ∈ L, e.1 < k) :
    fmAssign (L ++ (k, z0) :: R) k v = L ++ (k, v) :: R := by
  induction L with
  | nil => simp [fmAssign]
  | cons e t ih =>
    obtain ⟨o, z⟩ := e
    have ho : o < k := hL (o, z) (List.mem_cons_self _ _)
    have h1 : ¬ k < o := Nat.not_lt.mpr (Nat.le_of_lt ho)
    have h2 : k ≠ o := Nat.ne_of_gt ho
    simp only [List.cons_append, fmAssign, if_neg h1, if_neg h2, List.cons.injEq, true_and]
    exact ih fun e he => hL e (List.mem_cons_of_mem _ he)

theorem fmErase_append {L R : FM} {k v : ℕ} (hL : ∀ e ∈ L, e.1 ≠ k) :
    fmErase (L ++ (k, v) :: R) k = L ++ R := by
  induction L with
  | nil => simp [fmErase]
  | cons e t ih =>
    obtain ⟨o, z⟩ := e
    have ho : o ≠ k := hL (o, z) (List.mem_cons_self _ _)
    simp only [List.cons_append, fmErase, if_neg ho, List.cons.injEq, true_and]
    exact ih fun e he => hL e (List.mem_cons_of_mem _ he)

theorem fmPred_none_of_ge {R : FM} {k : ℕ} (hR : ∀ e ∈ R, k ≤ e.1) :
    fmPred R k = none := by
  cases R with
  | nil => rfl
  | cons r t =>
    obtain ⟨o, z⟩ := r
    have : ¬ o < k := Nat.not_lt.mpr (hR (o, z) (List.mem_cons_self _ _))
    simp [fmPred, this]

/-- With every key of `X` at or beyond `k` and every key of `L` below it,
the predecessor step of the coalescing code returns the last entry of `L`. -/
theorem fmPred_eq_getLast {X : FM} {k : ℕ} (hX : ∀ e ∈ X, k ≤ e.1) :
    ∀ (L : FM), (∀ e ∈ L, e.1 < k) → fmPred (L ++ X) k = L.getLast? := by
  intro L
  induction L with
  | nil =>
    intro _
    rw [List.nil_append, fmPred_none_of_ge hX]
    rfl
  | cons e t ih =>
    intro hL
    obtain ⟨o, z⟩ := e
    have ho : o < k := hL (o, z) (List.mem_cons_self _ _)
    simp only [List.cons_append, fmPred, if_pos ho]
    show some ((fmPred (t ++ X) k).getD (o, z)) = ((o, z) :: t).getLast?
    rw [ih fun e he => hL e (List.mem_cons_of_mem _ he), List.getLast?_cons]

/-- Every entry after the head of a well-formed map has key at least the
head's end. -/
theorem fmWF_keys_ge {o z : ℕ} {t : FM} (h : fmWF ((o, z) :: t) = true) :
    ∀ e ∈ t, o + z ≤ e.1 := by
  induction t generalizing o z with
  | nil => intro e he; cases he
  | cons e2 t2 ih =>
    obtain ⟨o2, z2⟩ := e2
    simp only [fmWF, Bool.and_eq_true, decide_eq_true_eq] at h
    intro e he
    have h2 : fmWF ((o2, z2) :: t2) = true := by
      simp only [fmWF, Bool.and_eq_true, decide_eq_true_eq]
      exact h.2
    rcases List.mem_cons.mp he with rfl | he2
    · exact h.1.2
    · have hz2 : 0 < z2 := h.2.1.1
      calc o + z ≤ o2 := h.1.2
        _ ≤ o2 + z2 := Nat.le_add_right _ _
        _ ≤ e.1 := ih h2 e he2

theorem fmWF_tail {e : ℕ × ℕ} {t : FM} (h : fmWF (e :: t) = true) : fmWF t = true := by
  obtain ⟨o, z⟩ := e
  simp only [fmWF, Bool.and_eq_true] at h
  exact h.2

theorem fmWF_pos {e : ℕ × ℕ} {t : FM} (h : fmWF (e :: t) = true) : 0 < e.2 := by
  obtain ⟨o, z⟩ := e
  simp only [fmWF, Bool.and_eq_true, decide_eq_true_eq] at h
  exact h.1.1

theorem fmWF_suffix {L R : FM} (h : fmWF (L ++ R) = true) : fmWF R = true := by
  induction L with
  | nil => exact h
  | cons e t ih => exact ih (fmWF_tail h)

/-- A well-formed map whose entries each lie entirely below `a` or at or
beyond `b` splits as lows followed by highs. -/
theorem fm_split {a b : ℕ} :
    ∀ (l : FM), fmWF l = true → (∀ e ∈ l, e.1 + e.2 ≤ a ∨ b ≤ e.1) →
      ∃ L R, l = L ++ R ∧ (∀ e ∈ L, e.1 + e.2 ≤ a) ∧ ∀ e ∈ R, b ≤ e.1 := by
  intro l
  induction l with
  | nil => exact fun _ _ => ⟨[], [], rfl, by simp, by simp⟩
  | cons e t ih =>
    intro hwf hdisj
    obtain ⟨o, z⟩ := e
    rcases hdisj (o, z) (List.mem_cons_self _ _) with hlo | hhi
    · obtain ⟨L, R, hsplit, hLa, hRb⟩ :=
        ih (fmWF_tail hwf) fun e he => hdisj e (List.mem_cons_of_mem _ he)
      exact ⟨(o, z) :: L, R, by rw [hsplit, List.cons_append],
        fun e he => by
          rcases List.mem_cons.mp he with rfl | he2
          · exact hlo
          · exact hLa e he2, hRb⟩
    · refine ⟨[], (o, z) :: t, rfl, by simp, fun e he => ?_⟩
      rcases List.mem_cons.mp he with rfl | he2
      · exact hhi
      · calc b ≤ o := hhi
          _ ≤ o + z := Nat.le_add_right _ _
          _ ≤ e.1 := fmWF_keys_ge hwf e he2

theorem align_up_self {b : ℕ} (h : b % 8 = 0) : align_up b 8 = b := by
  unfold align_up
  obtain ⟨k, rfl⟩ := Nat.dvd_of_mod_eq_zero h
  omega

/-- Common part of the single-free lemmas: with block `[off, off+bytes)`
disjoint from a decomposed well-placed map, the guards of
`MramAllocator::free` pass and the block is inserted between `L` and `R`. -/
theorem free_insert_core (st : MramAllocator) (off bytes : ℕ) (L R : FM)
    (hst : st.free_ = L ++ R)
    (hLe : ∀ e ∈ L, e.1 + e.2 ≤ off) (hLpos : ∀ e ∈ L, 0 < e.2)
    (hRk : ∀ e ∈ R, off + bytes ≤ e.1)
    (hcap : off + bytes ≤ st.limit_)
    (halign : align_up bytes 8 = bytes) (hbpos : 0 < bytes) :
    MramAllocator.free st off bytes =
      { st with free_ :=
          let fr1 := L ++ (off, bytes) :: R
          let merged : FM × ℕ :=
            match fmFind fr1 (off + bytes) with
            | some nsz => (fmAssign (fmErase fr1 (off + bytes)) off (bytes + nsz), bytes + nsz)
            | none => (fr1, bytes)
          match fmPred merged.1 off with
          | some pe => if pe.1 + pe.2 = off then fmAssign (fmErase merged.1 off) pe.1 (pe.2 + merged.2) else merged.1
          | none => merged.1 } := by
  have hLk : ∀ e ∈ L, e.1 < off := fun e he =>
    Nat.lt_of_lt_of_le (Nat.lt_add_of_pos_right (hLpos e he)) (hLe e he)
  have hRgt : ∀ e ∈ R, off < e.1 := fun e he =>
    Nat.lt_of_lt_of_le (Nat.lt_add_of_pos_right hbpos) (hRk e he)
  have hg1 : ¬ (off > st.limit_ ∨ off + bytes > st.limit_) := by
    push_neg
    exact ⟨Nat.le_trans (Nat.le_add_right _ _) hcap, hcap⟩
  have hfind : fmFind st.free_ off = none := by
    rw [hst]
    refine fmFind_eq_none fun e he => ?_
    rcases List.mem_append.mp he with h | h
    · exact Nat.ne_of_lt (hLk e h)
    · exact Nat.ne_of_gt (hRgt e h)
  have hassign : fmAssign st.free_ off bytes = L ++ (off, bytes) :: R := by
    rw [hst]; exact fmAssign_append hLk hRgt
  unfold MramAllocator.free
  rw [halign, if_neg hg1, hfind]
  simp only [Option.isSome_none, Bool.false_eq_true, if_false, hassign]


/-- Freeing a block with no adjacent free neighbour inserts it unchanged. -/
theorem free_no_merge (st : MramAllocator) (off bytes : ℕ) (L R : FM)
    (hst : st.free_ = L ++ R)
    (hLe : ∀ e ∈ L, e.1 + e.2 ≤ off) (hLpos : ∀ e ∈ L, 0 < e.2)
    (hRk : ∀ e ∈ R, off + bytes ≤ e.1)
    (hcap : off + bytes ≤ st.limit_)
    (halign : align_up bytes 8 = bytes) (hbpos : 0 < bytes)
    (hPrev : ∀ p ∈ L.getLast?, p.1 + p.2 ≠ off)
    (hNext : ∀ e ∈ R, e.1 ≠ off + bytes) :
    MramAllocator.free st off bytes = { st with free_ := L ++ (off, bytes) :: R } := by
  have hLk : ∀ e ∈ L, e.1 < off := fun e he =>
    Nat.lt_of_lt_of_le (Nat.lt_add_of_pos_right (hLpos e he)) (hLe e he)
  rw [free_insert_core st off bytes L R hst hLe hLpos hRk hcap halign hbpos]
  have hfind : fmFind (L ++ (off, bytes) :: R) (off + bytes) = none := by
    refine fmFind_eq_none fun e he => ?_
    rcases List.mem_append.mp he with h | h
    · exact Nat.ne_of_lt (Nat.lt_of_lt_of_le (hLk e h) (Nat.le_add_right _ _))
    · rcases List.mem_cons.mp h with rfl | h2
      · exact Nat.ne_of_lt (Nat.lt_add_of_pos_right hbpos)
      · exact hNext e h2
  have hpred : fmPred (L ++ (off, bytes) :: R) off = L.getLast? := by
    refine fmPred_eq_getLast (fun e he => ?_) L hLk
    rcases List.mem_cons.mp he with rfl | h2
    · exact Nat.le_refl _
    · exact Nat.le_trans (Nat.le_add_right _ _) (hRk e h2)
  simp only [hfind, hpred]
  cases hLast : L.getLast? with
  | none => rfl
  | some pe =>
    have hne : pe.1 + pe.2 ≠ off := hPrev pe (Option.mem_def.mpr hLast)
    simp [hne]

/-- Freeing a block whose predecessor block ends exactly at its offset
merges the two into one entry. -/
theorem free_merge_prev (st : MramAllocator) (off bytes : ℕ) (L2 : FM) (p pz : ℕ) (R : FM)
    (hst : st.free_ = (L2 ++ [(p, pz)]) ++ R)
    (hLe : ∀ e ∈ L2 ++ [(p, pz)], e.1 + e.2 ≤ off) (hLpos : ∀ e ∈ L2 ++ [(p, pz)], 0 < e.2)
    (hL2p : ∀ e ∈ L2, e.1 + e.2 ≤ p)
    (hRk : ∀ e ∈ R, off + bytes ≤ e.1)
    (hcap : off + bytes ≤ st.limit_)
    (halign : align_up bytes 8 = bytes) (hbpos : 0 < bytes)
    (hPrev : p + pz = off)
    (hNext : ∀ e ∈ R, e.1 ≠ off + bytes) :
    MramAllocator.free st off bytes = { st with free_ := L2 ++ (p, pz + bytes) :: R } := by
  have hLk : ∀ e ∈ L2 ++ [(p, pz)], e.1 < off := fun e he =>
    Nat.lt_of_lt_of_le (Nat.lt_add_of_pos_right (hLpos e he)) (hLe e he)
  have hL2k : ∀ e ∈ L2, e.1 < p := fun e he =>
    Nat.lt_of_lt_of_le (Nat.lt_add_of_pos_right (hLpos e (List.mem_append_left _ he))) (hL2p e he)
  rw [free_insert_core st off bytes (L2 ++ [(p, pz)]) R hst hLe hLpos hRk hcap halign hbpos]
  have hfind : fmFind ((L2 ++ [(p, pz)]) ++ (off, bytes) :: R) (off + bytes) = none := by
    refine fmFind_eq_none fun e he => ?_
    rcases List.mem_append.mp he with h | h
    · exact Nat.ne_of_lt (Nat.lt_of_lt_of_le (hLk e h) (Nat.le_add_right _ _))
    · rcases List.mem_cons.mp h with rfl | h2
      · exact Nat.ne_of_lt (Nat.lt_add_of_pos_right hbpos)
      · exact hNext e h2
  have hpred : fmPred ((L2 ++ [(p, pz)]) ++ (off, bytes) :: R) off = some (p, pz) := by
    rw [fmPred_eq_getLast (fun e he => ?_) _ hLk, List.getLast?_concat]
    rcases List.mem_cons.mp he with rfl | h2
    · exact Nat.le_refl _
    · exact Nat.le_trans (Nat.le_add_right _ _) (hRk e h2)
  have herase : fmErase ((L2 ++ [(p, pz)]) ++ (off, bytes) :: R) off = (L2 ++ [(p, pz)]) ++ R :=
    fmErase_append fun e he => Nat.ne_of_lt (hLk e he)
  simp only [hfind, hpred]
  rw [if_pos hPrev, herase]
  have hsh : (L2 ++ [(p, pz)]) ++ R = L2 ++ (p, pz) :: R := by simp
  rw [hsh, fmAssign_replace hL2k]

/-- Freeing a block whose successor block starts exactly at its end merges
the two into one entry. -/
theorem free_merge_next (st : MramAllocator) (off bytes : ℕ) (L : FM) (rz : ℕ) (R2 : FM)
    (hst : st.free_ = L ++ (off + bytes, rz) :: R2)
    (hLe : ∀ e ∈ L, e.1 + e.2 ≤ off) (hLpos : ∀ e ∈ L, 0 < e.2)
    (hR2k : ∀ e ∈ R2, off + bytes ≤ e.1)
    (hcap : off + bytes ≤ st.limit_)
    (halign : align_up bytes 8 = bytes) (hbpos : 0 < bytes)
    (hPrev : ∀ p ∈ L.getLast?, p.1 + p.2 ≠ off) :
    MramAllocator.free st off bytes = { st with free_ := L ++ (off, bytes + rz) :: R2 } := by
  have hLk : ∀ e ∈ L, e.1 < off := fun e he =>
    Nat.lt_of_lt_of_le (Nat.lt_add_of_pos_right (hLpos e he)) (hLe e he)
  have hRk : ∀ e ∈ (off + bytes, rz) :: R2, off + bytes ≤ e.1 := by
    intro e he
    rcases List.mem_cons.mp he with rfl | h2
    · exact Nat.le_refl _
    · exact hR2k e h2
  rw [free_insert_core st off bytes L ((off + bytes, rz) :: R2) hst hLe hLpos hRk hcap halign hbpos]
  have hkeysLo : ∀ e ∈ L ++ [(off, bytes)], e.1 ≠ off + bytes := by
    intro e he
    rcases List.mem_append.mp he with h | h
    · exact Nat.ne_of_lt (Nat.lt_of_lt_of_le (hLk e h) (Nat.le_add_right _ _))
    · rcases List.mem_singleton.mp h with rfl
      exact Nat.ne_of_lt (Nat.lt_add_of_pos_right hbpos)
  have hshape : L ++ (off, bytes) :: (off + bytes, rz) :: R2
      = (L ++ [(off, bytes)]) ++ (off + bytes, rz) :: R2 := by simp
  have hfind : fmFind (L ++ (off, bytes) :: (off + bytes, rz) :: R2) (off + bytes) = some rz := by
    rw [hshape]; exact fmFind_append_cons hkeysLo
  have herase : fmErase (L ++ (off, bytes) :: (off + bytes, rz) :: R2) (off + bytes)
      = L ++ (off, bytes) :: R2 := by
    rw [hshape, fmErase_append hkeysLo]; simp
  have hassign : fmAssign (L ++ (off, bytes) :: R2) off (bytes + rz)
      = L ++ (off, bytes + rz) :: R2 := fmAssign_replace hLk
  have hpred : fmPred (L ++ (off, bytes + rz) :: R2) off = L.getLast? := by
    refine fmPred_eq_getLast (fun e he => ?_) L hLk
    rcases List.mem_cons.mp he with rfl | h2
    · exact Nat.le_refl _
    · exact Nat.le_trans (Nat.le_add_right _ _) (hR2k e h2)
  simp only [hfind, herase, hassign, hpred]
  cases hLast : L.getLast? with
  | none => rfl
  | some pe =>
    have hne : pe.1 + pe.2 ≠ off := hPrev pe (Option.mem_def.mpr hLast)
    simp [hne]

/-- Freeing a block adjacent to free blocks on both sides collapses all
three into one entry. -/
theorem free_merge_both (st : MramAllocator) (off bytes : ℕ) (L2 : FM) (p pz rz : ℕ) (R2 : FM)
    (hst : st.free_ = (L2 ++ [(p, pz)]) ++ (off + bytes, rz) :: R2)
    (hLe : ∀ e ∈ L2 ++ [(p, pz)], e.1 + e.2 ≤ off) (hLpos : ∀ e ∈ L2 ++ [(p, pz)], 0 < e.2)
    (hL2p : ∀ e ∈ L2, e.1 + e.2 ≤ p)
    (hR2k : ∀ e ∈ R2, off + bytes ≤ e.1)
    (hcap : off + bytes ≤ st.limit_)
    (halign : align_up bytes 8 = bytes) (hbpos : 0 < bytes)
    (hPrev : p + pz = off) :
    MramAllocator.free st off bytes = { st with free_ := L2 ++ (p, pz + (bytes + rz)) :: R2 } := by
  have hLk : ∀ e ∈ L2 ++ [(p, pz)], e.1 < off := fun e he =>
    Nat.lt_of_lt_of_le (Nat.lt_add_of_pos_right (hLpos e he)) (hLe e he)
  have hL2k : ∀ e ∈ L2, e.1 < p := fun e he =>
    Nat.lt_of_lt_of_le (Nat.lt_add_of_pos_right (hLpos e (List.mem_append_left _ he))) (hL2p e he)
  have hRk : ∀ e ∈ (off + bytes, rz) :: R2, off + bytes ≤ e.1 := by
    intro e he
    rcases List.mem_cons.mp he with rfl | h2
    · exact Nat.le_refl _
    · exact hR2k e h2
  rw [free_insert_core st off bytes (L2 ++ [(p, pz)]) ((off + bytes, rz) :: R2) hst hLe hLpos hRk
    hcap halign hbpos]
  have hkeysLo : ∀ e ∈ (L2 ++ [(p, pz)]) ++ [(off, bytes)], e.1 ≠ off + bytes := by
    intro e he
    rcases List.mem_append.mp he with h | h
    · exact Nat.ne_of_lt (Nat.lt_of_lt_of_le (hLk e h) (Nat.le_add_right _ _))
    · rcases List.mem_singleton.mp h with rfl
      exact Nat.ne_of_lt (Nat.lt_add_of_pos_right hbpos)
  have hshape : (L2 ++ [(p, pz)]) ++ (off, bytes) :: (off + bytes, rz) :: R2
      = ((L2 ++ [(p, pz)]) ++ [(off, bytes)]) ++ (off + bytes, rz) :: R2 := by simp
  have hfind : fmFind ((L2 ++ [(p, pz)]) ++ (off, bytes) :: (off + bytes, rz) :: R2) (off + bytes)
      = some rz := by
    rw [hshape]; exact fmFind_append_cons hkeysLo
  have herase : fmErase ((L2 ++ [(p, pz)]) ++ (off, bytes) :: (off + bytes, rz) :: R2) (off + bytes)
      = (L2 ++ [(p, pz)]) ++ (off, bytes) :: R2 := by
    rw [hshape, fmErase_append hkeysLo]; simp
  have hassign : fmAssign ((L2 ++ [(p, pz)]) ++ (off, bytes) :: R2) off (bytes + rz)
      = (L2 ++ [(p, pz)]) ++ (off, bytes + rz) :: R2 := fmAssign_replace hLk
  have hpred : fmPred ((L2 ++ [(p, pz)]) ++ (off, bytes + rz) :: R2) off = some (p, pz) := by
    rw [fmPred_eq_getLast (fun e he => ?_) _ hLk, List.getLast?_concat]
    rcases List.mem_cons.mp he with rfl | h2
    · exact Nat.le_refl _
    · exact Nat.le_trans (Nat.le_add_right _ _) (hR2k e h2)
  have herase2 : fmErase ((L2 ++ [(p, pz)]) ++ (off, bytes + rz) :: R2) off
      = (L2 ++ [(p, pz)]) ++ R2 := fmErase_append fun e he => Nat.ne_of_lt (hLk e he)
  simp only [hfind, herase, hassign, hpred]
  rw [if_pos hPrev, herase2]
  have hsh : (L2 ++ [(p, pz)]) ++ R2 = L2 ++ (p, pz) :: R2 := by simp
  rw [hsh, fmAssign_replace hL2k]

theorem fmWF_pos_all {l : FM} (h : fmWF l = true) : ∀ e ∈ l, 0 < e.2 := by
  induction l with
  | nil => intro e he; cases he
  | cons e t ih =>
    intro f hf
    rcases List.mem_cons.mp hf with rfl | h2
    · exact fmWF_pos h
    · exact ih (fmWF_tail h) f h2

theorem fmWF_append_le {X Y : FM} (h : fmWF (X ++ Y) = true) :
    ∀ e ∈ X, ∀ f ∈ Y, e.1 + e.2 ≤ f.1 := by
  induction X with
  | nil => intro e he; cases he
  | cons e t ih =>
    intro g hg f hf
    rcases List.mem_cons.mp hg with rfl | h2
    · obtain ⟨o, z⟩ := g
      exact fmWF_keys_ge (List.cons_append _ _ _ ▸ h) f (List.mem_append_right _ hf)
    · exact ih (fmWF_tail h) g h2 f hf

theorem getLast?_imp {l : List (ℕ × ℕ)} {P : ℕ × ℕ → Prop} (h : ∀ e ∈ l, P e) :
    ∀ p ∈ l.getLast?, P p := by
  intro p hp
  obtain ⟨hne, rfl⟩ := List.mem_getLast?_eq_getLast hp
  exact h _ (List.getLast_mem hne)

/-- A decomposed free map with exactly one entry covering the range
`[a, a + len)` has span count one. -/
theorem spanCount_single (Lf : FM) (lo sz : ℕ) (Rf : FM) (a len : ℕ)
    (hlen : 0 < len)
    (hLf : ∀ e ∈ Lf, e.1 + e.2 ≤ a)
    (hRf : ∀ e ∈ Rf, a < e.1)
    (hlo : lo ≤ a) (hsz : a + len ≤ lo + sz) :
    spanCount (Lf ++ (lo, sz) :: Rf) a len = 1 := by
  unfold spanCount
  rw [List.filter_append]
  have h1 : Lf.filter (spansBoth a len) = [] := by
    rw [List.filter_eq_nil_iff]
    intro e he
    have := hLf e he
    simp only [spansBoth, Bool.and_eq_true, decide_eq_true_eq, not_and]
    intro _
    omega
  have h2 : spansBoth a len (lo, sz) = true := by
    simp only [spansBoth, Bool.and_eq_true, decide_eq_true_eq]
    exact ⟨hlo, hsz⟩
  have h3 : Rf.filter (spansBoth a len) = [] := by
    rw [List.filter_eq_nil_iff]
    intro e he
    have := hRf e he
    simp only [spansBoth, Bool.and_eq_true, decide_eq_true_eq, not_and]
    omega
  rw [h1, List.filter_cons_of_pos h2, h3]
  rfl

/-- Freeing an offset already present in the free map leaves the
allocator unchanged (double-free guard of `MramAllocator::free`). -/
theorem double_free_ignored (st : MramAllocator) (off bytes : ℕ)
    (h : (fmFind st.free_ off).isSome = true) :
    MramAllocator.free st off bytes = st := by
  unfold MramAllocator.free
  by_cases hg : off > st.limit_ ∨ off + align_up bytes 8 > st.limit_
  · rw [if_pos hg]
  · rw [if_neg hg, if_pos h]

/-- Freeing the lower of two adjacent allocated blocks and then the upper
one leaves one free-map entry spanning both. -/
theorem order1_coalesce (st : MramAllocator) (a s t : ℕ) (L R : FM)
    (hwf : fmWF st.free_ = true)
    (hLR : st.free_ = L ++ R)
    (hLa : ∀ e ∈ L, e.1 + e.2 ≤ a)
    (hRb : ∀ e ∈ R, a + s + t ≤ e.1)
    (hs : 0 < s) (ht : 0 < t) (hsal : align_up s 8 = s) (htal : align_up t 8 = t)
    (hcap : a + s + t ≤ st.limit_) :
    spanCount ((MramAllocator.free (MramAllocator.free st a s) (a + s) t).free_) a (s + t) = 1 := by
  have hwfA : fmWF (L ++ R) = true := hLR ▸ hwf
  have hLpos : ∀ e ∈ L, 0 < e.2 := fun e he => fmWF_pos_all hwfA e (List.mem_append_left _ he)
  have hRwf : fmWF R = true := fmWF_suffix hwfA
  have hcap1 : a + s ≤ st.limit_ := by omega
  have hRk1 : ∀ e ∈ R, a + s ≤ e.1 := fun e he => by have := hRb e he; omega
  have hNext1 : ∀ e ∈ R, e.1 ≠ a + s := fun e he => by have := hRb e he; omega
  have step1 : ∃ Lx α σ, MramAllocator.free st a s = { st with free_ := Lx ++ (α, σ) :: R }
      ∧ α + σ = a + s ∧ α ≤ a ∧ (∀ e ∈ Lx, e.1 + e.2 ≤ α) ∧ ∀ e ∈ Lx, 0 < e.2 := by
    rcases List.eq_nil_or_concat L with rfl | ⟨L2, pe, hL⟩
    · refine ⟨[], a, s, ?_, rfl, Nat.le_refl _, by simp, by simp⟩
      exact free_no_merge st a s [] R hLR (by simp) (by simp) hRk1 hcap1 hsal hs (by simp) hNext1
    · obtain ⟨p, pz⟩ := pe
      rw [List.concat_eq_append] at hL
      subst hL
      have hwfs : fmWF (L2 ++ ((p, pz) :: R)) = true := by
        have hsh : (L2 ++ [(p, pz)]) ++ R = L2 ++ ((p, pz) :: R) := by simp
        exact hsh ▸ hwfA
      have hL2p : ∀ e ∈ L2, e.1 + e.2 ≤ p :=
        fun e he => fmWF_append_le hwfs e he (p, pz) (List.mem_cons_self _ _)
      have hppz : p + pz ≤ a := hLa (p, pz) (List.mem_append_right _ (List.mem_singleton_self _))
      by_cases hpa : p + pz = a
      · refine ⟨L2, p, pz + s, ?_, by omega, by omega, hL2p, ?_⟩
        · exact free_merge_prev st a s L2 p pz R hLR hLa hLpos hL2p hRk1 hcap1 hsal hs hpa hNext1
        · exact fun e he => hLpos e (List.mem_append_left _ he)
      · refine ⟨L2 ++ [(p, pz)], a, s, ?_, rfl, Nat.le_refl _, hLa, hLpos⟩
        refine free_no_merge st a s (L2 ++ [(p, pz)]) R hLR hLa hLpos hRk1 hcap1 hsal hs ?_ hNext1
        rw [List.getLast?_concat]
        intro q hq
        obtain rfl : (p, pz) = q := Option.some_inj.mp (Option.mem_def.mp hq)
        exact hpa
  obtain ⟨Lx, α, σ, hfree1, hασ, hαa, hLxα, hLxpos⟩ := step1
  rw [hfree1]
  have hσpos : 0 < σ := by omega
  have hst1f : ({ st with free_ := Lx ++ (α, σ) :: R } : MramAllocator).free_
      = (Lx ++ [(α, σ)]) ++ R := by simp
  have hLe2 : ∀ e ∈ Lx ++ [(α, σ)], e.1 + e.2 ≤ a + s := by
    intro e he
    rcases List.mem_append.mp he with h | h
    · have := hLxα e h; omega
    · rcases List.mem_singleton.mp h with rfl; omega
  have hLpos2 : ∀ e ∈ Lx ++ [(α, σ)], 0 < e.2 := by
    intro e he
    rcases List.mem_append.mp he with h | h
    · exact hLxpos e h
    · rcases List.mem_singleton.mp h with rfl; exact hσpos
  have hcap2 : a + s + t ≤ ({ st with free_ := Lx ++ (α, σ) :: R } : MramAllocator).limit_ := hcap
  have hLfin : ∀ e ∈ Lx, e.1 + e.2 ≤ a := fun e he => by have := hLxα e he; omega
  cases R with
  | nil =>
    rw [free_merge_prev _ (a + s) t Lx α σ [] hst1f hLe2 hLpos2 hLxα (by simp) hcap2 htal ht hασ
      (by simp)]
    exact spanCount_single Lx α (σ + t) [] a (s + t) (by omega) hLfin (by simp) hαa (by omega)
  | cons r R2 =>
    obtain ⟨rk, rz⟩ := r
    have hrk : a + s + t ≤ rk := hRb (rk, rz) (List.mem_cons_self _ _)
    have hR2keys : ∀ e ∈ R2, rk + rz ≤ e.1 := fmWF_keys_ge hRwf
    have hrzpos : 0 < rz := fmWF_pos hRwf
    by_cases hr : rk = a + s + t
    · subst hr
      rw [free_merge_both _ (a + s) t Lx α σ rz R2 hst1f hLe2 hLpos2 hLxα
        (fun e he => by have := hR2keys e he; omega) hcap2 htal ht hασ]
      exact spanCount_single Lx α (σ + (t + rz)) R2 a (s + t) (by omega) hLfin
        (fun e he => by have := hR2keys e he; omega) hαa (by omega)
    · have hNext2 : ∀ e ∈ (rk, rz) :: R2, e.1 ≠ a + s + t := by
        intro e he
        rcases List.mem_cons.mp he with rfl | h2
        · exact hr
        · have := hR2keys e h2; omega
      rw [free_merge_prev _ (a + s) t Lx α σ ((rk, rz) :: R2) hst1f hLe2 hLpos2 hLxα
        (fun e he => by
          rcases List.mem_cons.mp he with rfl | h2
          · omega
          · have := hR2keys e h2; omega) hcap2 htal ht hασ hNext2]
      refine spanCount_single Lx α (σ + t) ((rk, rz) :: R2) a (s + t) (by omega) hLfin ?_ hαa
        (by omega)
      intro e he
      rcases List.mem_cons.mp he with rfl | h2
      · omega
      · have := hR2keys e h2; omega

/-- Freeing the upper of two adjacent allocated blocks and then the lower
one leaves one free-map entry spanning both. -/
theorem order2_coalesce (st : MramAllocator) (a s t : ℕ) (L R : FM)
    (hwf : fmWF st.free_ = true)
    (hLR : st.free_ = L ++ R)
    (hLa : ∀ e ∈ L, e.1 + e.2 ≤ a)
    (hRb : ∀ e ∈ R, a + s + t ≤ e.1)
    (hs : 0 < s) (ht : 0 < t) (hsal : align_up s 8 = s) (htal : align_up t 8 = t)
    (hcap : a + s + t ≤ st.limit_) :
    spanCount ((MramAllocator.free (MramAllocator.free st (a + s) t) a s).free_) a (s + t) = 1 := by
  have hwfA : fmWF (L ++ R) = true := hLR ▸ hwf
  have hLpos : ∀ e ∈ L, 0 < e.2 := fun e he => fmWF_pos_all hwfA e (List.mem_append_left _ he)
  have hRwf : fmWF R = true := fmWF_suffix hwfA
  have hLes : ∀ e ∈ L, e.1 + e.2 ≤ a + s := fun e he => by have := hLa e he; omega
  have hPrev1 : ∀ p ∈ L.getLast?, p.1 + p.2 ≠ a + s :=
    getLast?_imp fun e he => by have := hLa e he; omega
  have step1 : ∃ T Rf, MramAllocator.free st (a + s) t = { st with free_ := L ++ (a + s, T) :: Rf }
      ∧ t ≤ T ∧ a + s + T ≤ a + s + t + (T - t)
      ∧ (∀ e ∈ Rf, a + s + t ≤ e.1) ∧ a + s + t ≤ a + s + T := by
    cases R with
    | nil =>
      refine ⟨t, [], ?_, Nat.le_refl _, by omega, by simp, by omega⟩
      exact free_no_merge st (a + s) t L [] hLR hLes hLpos (by simp) hcap htal ht hPrev1 (by simp)
    | cons r R2 =>
      obtain ⟨rk, rz⟩ := r
      have hrk : a + s + t ≤ rk := hRb (rk, rz) (List.mem_cons_self _ _)
      have hR2keys : ∀ e ∈ R2, rk + rz ≤ e.1 := fmWF_keys_ge hRwf
      have hrzpos : 0 < rz := fmWF_pos hRwf
      by_cases hr : rk = a + s + t
      · subst hr
        refine ⟨t + rz, R2, ?_, by omega, by omega,
          fun e he => by have := hR2keys e he; omega, by omega⟩
        exact free_merge_next st (a + s) t L rz R2 hLR hLes hLpos
          (fun e he => by have := hR2keys e he; omega) hcap htal ht hPrev1
      · refine ⟨t, (rk, rz) :: R2, ?_, Nat.le_refl _, by omega, ?_, by omega⟩
        · refine free_no_merge st (a + s) t L ((rk, rz) :: R2) hLR hLes hLpos ?_ hcap htal ht
            hPrev1 ?_
          · intro e he
            rcases List.mem_cons.mp he with rfl | h2
            · omega
            · have := hR2keys e h2; omega
          · intro e he
            rcases List.mem_cons.mp he with rfl | h2
            · exact hr
            · have := hR2keys e h2; omega
        · intro e he
          rcases List.mem_cons.mp he with rfl | h2
          · omega
          · have := hR2keys e h2; omega
  obtain ⟨T, Rf, hfree1, htT, _, hRfk, _⟩ := step1
  rw [hfree1]
  have hst1f : ({ st with free_ := L ++ (a + s, T) :: Rf } : MramAllocator).free_
      = L ++ (a + s, T) :: Rf := rfl
  have hcap2 : a + s ≤ ({ st with free_ := L ++ (a + s, T) :: Rf } : MramAllocator).limit_ := by
    show a + s ≤ st.limit_
    omega
  have hRfk2 : ∀ e ∈ Rf, a + s ≤ e.1 := fun e he => by have := hRfk e he; omega
  have hRfgt : ∀ e ∈ Rf, a < e.1 := fun e he => by have := hRfk e he; omega
  rcases List.eq_nil_or_concat L with rfl | ⟨L2, pe, hL⟩
  · rw [free_merge_next _ a s [] T Rf hst1f (by simp) (by simp) hRfk2 hcap2 hsal hs (by simp)]
    exact spanCount_single [] a (s + T) Rf a (s + t) (by omega) (by simp) hRfgt (Nat.le_refl _)
      (by omega)
  · obtain ⟨p, pz⟩ := pe
    rw [List.concat_eq_append] at hL
    subst hL
    have hwfs : fmWF (L2 ++ ((p, pz) :: R)) = true := by
      have hsh : (L2 ++ [(p, pz)]) ++ R = L2 ++ ((p, pz) :: R) := by simp
      exact hsh ▸ hwfA
    have hL2p : ∀ e ∈ L2, e.1 + e.2 ≤ p :=
      fun e he => fmWF_append_le hwfs e he (p, pz) (List.mem_cons_self _ _)
    have hL2a : ∀ e ∈ L2, e.1 + e.2 ≤ a :=
      fun e he => hLa e (List.mem_append_left _ he)
    have hppz : p + pz ≤ a := hLa (p, pz) (List.mem_append_right _ (List.mem_singleton_self _))
    have hLes2 : ∀ e ∈ L2 ++ [(p, pz)], e.1 + e.2 ≤ a := hLa
    have hLpos2 : ∀ e ∈ L2 ++ [(p, pz)], 0 < e.2 := hLpos
    have hst1f2 : ({ st with free_ := (L2 ++ [(p, pz)]) ++ (a + s, T) :: Rf } : MramAllocator).free_
        = (L2 ++ [(p, pz)]) ++ (a + s, T) :: Rf := rfl
    by_cases hpa : p + pz = a
    · rw [free_merge_both _ a s L2 p pz T Rf hst1f2 hLes2 hLpos2 hL2p hRfk2 hcap2 hsal hs hpa]
      exact spanCount_single L2 p (pz + (s + T)) Rf a (s + t) (by omega) hL2a hRfgt (by omega)
        (by omega)
    · have hPrev2 : ∀ q ∈ (L2 ++ [(p, pz)]).getLast?, q.1 + q.2 ≠ a := by
        rw [List.getLast?_concat]
        intro q hq
        obtain rfl : (p, pz) = q := Option.some_inj.mp (Option.mem_def.mp hq)
        exact hpa
      rw [free_merge_next _ a s (L2 ++ [(p, pz)]) T Rf hst1f2 hLes2 hLpos2 hRfk2 hcap2 hsal hs
        hPrev2]
      exact spanCount_single (L2 ++ [(p, pz)]) a (s + T) Rf a (s + t) (by omega) hLa hRfgt
        (Nat.le_refl _) (by omega)

/-- C6: for any well-formed allocator state, freeing two adjacent
allocated blocks in either order leaves exactly one free-map entry
spanning both ranges, and freeing an offset already present in the free
map is ignored, leaving the allocator unchanged. -/
theorem free_adjacent_coalesce_and_double_free_ignored
    (st : MramAllocator) (a s t : ℕ)
    (hwf : fmWF st.free_ = true)
    (hs : 0 < s) (ht : 0 < t)
    (hs8 : s % 8 = 0) (ht8 : t % 8 = 0)
    (hcap : a + s + t ≤ st.limit_)
    (hdisj : ∀ e ∈ st.free_, e.1 + e.2 ≤ a ∨ a + s + t ≤ e.1) :
    spanCount ((MramAllocator.free (MramAllocator.free st a s) (a + s) t).free_) a (s + t) = 1
    ∧ spanCount ((MramAllocator.free (MramAllocator.free st (a + s) t) a s).free_) a (s + t) = 1
    ∧ ∀ off bytes : ℕ, (fmFind st.free_ off).isSome = true →
        MramAllocator.free st off bytes = st := by
  obtain ⟨L, R, hLR, hLa, hRb⟩ := fm_split st.free_ hwf hdisj
  exact ⟨order1_coalesce st a s t L R hwf hLR hLa hRb hs ht (align_up_self hs8)
      (align_up_self ht8) hcap,
    order2_coalesce st a s t L R hwf hLR hLa hRb hs ht (align_up_self hs8)
      (align_up_self ht8) hcap,
    fun off bytes h => double_free_ignored st off bytes h⟩

/-- Witness for C6 at a concrete state: one pre-existing free block at
offset 40, adjacent allocated blocks `[0,8)` and `[8,24)`. -/
theorem free_adjacent_coalesce_witness :
    fmWF ((⟨48, 64, [(40, 8)]⟩ : MramAllocator)).free_ = true
    ∧ (spanCount ((MramAllocator.free (MramAllocator.free ⟨48, 64, [(40, 8)]⟩ 0 8) (0 + 8) 16).free_) 0 (8 + 16) = 1
      ∧ spanCount ((MramAllocator.free (MramAllocator.free ⟨48, 64, [(40, 8)]⟩ (0 + 8) 16) 0 8).free_) 0 (8 + 16) = 1
      ∧ ∀ off bytes : ℕ, (fmFind (⟨48, 64, [(40, 8)]⟩ : MramAllocator).free_ off).isSome = true →
          MramAllocator.free ⟨48, 64, [(40, 8)]⟩ off bytes = ⟨48, 64, [(40, 8)]⟩) :=
  ⟨by decide,
    free_adjacent_coalesce_and_double_free_ignored ⟨48, 64, [(40, 8)]⟩ 0 8 16 (by decide)
      (by decide) (by decide) (by decide) (by decide) (by decide) (by decide)⟩

/-- C7: on a fresh allocator with capacity limit 64, the scenario
alloc(16), alloc(16), free(0,16), alloc(8), alloc(16) succeeds with the
alloc calls returning offsets 0, 16, 0 and 32. -/
theorem allocator_concrete_scenario :
    MramAllocator.alloc ⟨0, 64, []⟩ 16 = .ok (⟨16, 64, []⟩, 0)
    ∧ MramAllocator.alloc ⟨16, 64, []⟩ 16 = .ok (⟨32, 64, []⟩, 16)
    ∧ MramAllocator.free ⟨32, 64, []⟩ 0 16 = ⟨32, 64, [(0, 16)]⟩
    ∧ MramAllocator.alloc ⟨32, 64, [(0, 16)]⟩ 8 = .ok (⟨32, 64, [(8, 8)]⟩, 0)
    ∧ MramAllocator.alloc ⟨32, 64, [(8, 8)]⟩ 16 = .ok (⟨48, 64, [(8, 8)]⟩, 32) :=
  ⟨rfl, rfl, rfl, rfl, rfl⟩

/-! ## Kernel argument record (src/third-party/pim-hexl/src/utils/common.h,
host_args.hpp) -/

/-- Translation of the `pimop_t` opcode enumeration from common.h. -/
inductive pimop_t
  | MOD_ADD
  | MOD_ADD_SCALAR
  | CMP_ADD
  | CMP_SUB_MOD
  | FMA_MOD
  | MOD_SUB
  | MOD_SUB_SCALAR
  | MOD_MUL
  | MOD_MUL_SCALAR
  | MOD_REDUCE
  | NTT_STAGE
deriving DecidableEq

/-- Translation of the `cmp_t` comparison-code enumeration. -/
inductive cmp_t
  | CMP_EQ
  | CMP_NE
  | CMP_LT
  | CMP_LE
  | CMP_NLT
  | CMP_NLE
  | CMP_TRUE
  | CMP_FALSE
deriving DecidableEq

/-- Translation of `dpu_array_t` (offset, element count, byte count). -/
structure dpu_array_t where
  offset : ℕ
  size : ℕ
  size_in_bytes : ℕ
deriving DecidableEq

/-- Translation of the fixed-layout `dpu_arguments_t` record from
common.h; field order follows the C struct. -/
structure dpu_arguments_t where
  A : dpu_array_t
  B : dpu_array_t
  C : dpu_array_t
  kernel : pimop_t
  mod : ℕ
  mu : ℕ
  scalar : ℕ
  cmp : cmp_t
  bound : ℕ
  mod_factor : ℕ
  input_mod_factor : ℕ
  output_mod_factor : ℕ
deriving DecidableEq

/-- Zero-initialised record, as produced by the value-initialised
`dpu_arguments_t a_{}` inside `ArgsBuilder`. -/
def dpu_arguments_t.zero : dpu_arguments_t :=
  ⟨⟨0, 0, 0⟩, ⟨0, 0, 0⟩, ⟨0, 0, 0⟩, .MOD_ADD, 0, 0, 0, .CMP_EQ, 0, 0, 0, 0⟩

/-- Translation of `make_array` from host_args.hpp (element size 8 for
`uint64_t`). -/
def make_array (off elems : ℕ) : dpu_array_t := ⟨off, elems, elems * 8⟩

/-! ## Device manager (pim_manager.hpp, src/unnamed/part_004; and the
host.hpp variant, src/unnamed/part_002 lines 99-222)

The driver calls made through the `DpuSet` handle (`load`, `copy`,
`exec`) are recorded as an explicit effect trace; the driver itself is an
external collaborator, so its observable invocations are the model's
outputs. -/

/-- Device-visible effects issued through the `DpuSet` driver handle. -/
inductive Eff
  | load (elf : String)
  | copyToDev (off : ℕ) (per_dpu : List (List ℕ))
  | copyFromDev (off bytes : ℕ)
  | copyArgs (args : dpu_arguments_t)
  | execute
deriving DecidableEq

/-- State of the `PIMManager` singleton (pim_manager.hpp): unit count,
program path, the initialised/loaded flags and one allocator per unit. -/
structure PIMManager where
  dpu_n_ : ℕ
  elf_path_ : String
  initialised_ : Bool
  loaded_ : Bool
  alloc_ : List MramAllocator
deriving DecidableEq

/-- A fresh (never-initialised) manager, as produced by the private
default constructor. -/
def PIMManager.fresh : PIMManager := ⟨0, "", false, false, []⟩

/-- Translation of `PIMManager::ensure_loaded`: load the program on the
first call when a path was recorded, afterwards do nothing. -/
def PIMManager.ensure_loaded (m : PIMManager) : PIMManager × List Eff :=
  if ¬ m.loaded_ ∧ m.elf_path_ ≠ "" then ({ m with loaded_ := true }, [Eff.load m.elf_path_])
  else (m, [])

/-- Errors surfaced by the manager model. -/
inductive MgrErr
  | noDpus
  | allocatorsNotReady
  | allocFailed
  | sizeMismatch
deriving DecidableEq

/-- Translation of `PIMManager::init` (part_004 lines 61-90).  `shutdown`
models the static `shutdown_mode` flag; `navail` models the unit count the
external `DpuSet::allocate` call yields for the request.  Note the
`ensure_loaded()` call at the end of the source function. -/
def PIMManager.init (m : PIMManager) (shutdown : Bool) (navail : ℕ) (elf : String) :
    Except MgrErr (PIMManager × List Eff) :=
  if shutdown then .ok (m, [])
  else if m.initialised_ then .ok (m, [])
  else if navail = 0 then .error .noDpus
  else
    let m := { m with dpu_n_ := navail, alloc_ := List.replicate navail MramAllocator.new,
                      elf_path_ := elf, initialised_ := true }
    let p := m.ensure_loaded
    .ok (p.1, p.2)

/-- Translation of `PIMManager::scatter` (part_004 lines 117-123): lock,
`ensure_loaded`, then one driver copy of the per-unit buffers — with no
check of the buffer count against the unit count. -/
def PIMManager.scatter (m : PIMManager) (per_dpu : List (List ℕ)) (off : ℕ) :
    PIMManager × List Eff :=
  let p := m.ensure_loaded
  (p.1, p.2 ++ [Eff.copyToDev off per_dpu])

/-- Translation of `PIMManager::gather` (part_004): `ensure_loaded` then
one driver copy of `bytes` from every unit at `off`. -/
def PIMManager.gather (m : PIMManager) (bytes off : ℕ) : PIMManager × List Eff :=
  let p := m.ensure_loaded
  (p.1, p.2 ++ [Eff.copyFromDev off bytes])

/-- Translation of `PIMManager::push_args` (part_004): `ensure_loaded`
then one broadcast of the fixed-size argument record. -/
def PIMManager.push_args (m : PIMManager) (args : dpu_arguments_t) : PIMManager × List Eff :=
  let p := m.ensure_loaded
  (p.1, p.2 ++ [Eff.copyArgs args])

/-- Translation of `PIMManager::exec` (part_004): `ensure_loaded` then the
blocking launch across all units. -/
def PIMManager.exec (m : PIMManager) : PIMManager × List Eff :=
  let p := m.ensure_loaded
  (p.1, p.2 ++ [Eff.execute])

/-- Translation of the host.hpp `PIMManager::scatter` variant (part_002
lines 148-159): `ensure_loaded`, then the buffer-count check throwing
"scatter size mismatch", then the driver copy.  The error carries the
manager state and effect trace accumulated before the throw. -/
def PIMManager.scatter_hosthpp (m : PIMManager) (per_dpu : List (List ℕ)) (off : ℕ) :
    Except (PIMManager × List Eff × MgrErr) (PIMManager × List Eff) :=
  let p := m.ensure_loaded
  if per_dpu.length ≠ p.1.dpu_n_ then .error (p.1, p.2, .sizeMismatch)
  else .ok (p.1, p.2 ++ [Eff.copyToDev off per_dpu])

/-- Memory block descriptor (`PIMManager::Block` of part_004). -/
structure Block where
  off : ℕ
  bytes : ℕ
deriving DecidableEq

/-- Run `alloc` for the same request on every allocator of a list,
propagating the first failure (the drain loop of `allocate_uniform`). -/
def allocAll : List MramAllocator → ℕ → Except AllocErr (List MramAllocator)
  | [], _ => .ok []
  | al :: rest, bytes =>
    match MramAllocator.alloc al bytes with
    | .error e => .error e
    | .ok (al2, _) =>
      match allocAll rest bytes with
      | .error e => .error e
      | .ok rest2 => .ok (al2 :: rest2)

/-- Translation of `PIMManager::allocate_uniform` (part_004): align to 8,
allocate the same amount from every unit's allocator, return the offset
obtained from unit 0. -/
def PIMManager.allocate_uniform (m : PIMManager) (bytes0 : ℕ) :
    Except MgrErr (PIMManager × Block) :=
  let bytes := align_up bytes0 8
  match m.alloc_ with
  | [] => .error .allocatorsNotReady
  | a0 :: rest =>
    match MramAllocator.alloc a0 bytes with
    | .error _ => .error .allocFailed
    | .ok (a02, off) =>
      match allocAll rest bytes with
      | .error _ => .error .allocFailed
      | .ok rest2 => .ok ({ m with alloc_ := a02 :: rest2 }, ⟨off, bytes⟩)

/-- Translation of `PIMManager::deallocate` (part_004): a no-op while in
shutdown, otherwise free the block on every unit's allocator. -/
def PIMManager.deallocate (m : PIMManager) (shutdown : Bool) (b : Block) : PIMManager :=
  if shutdown then m
  else { m with alloc_ := m.alloc_.map fun al => MramAllocator.free al b.off b.bytes }

/-! ## Distributed vector (pim_vector.hpp, src/unnamed/part_001)

The element type is the device word `uint64_t` (the
`std::is_same_v<T, dpu_word_t>` branch of `commit`/`pull_all`; the
serializer branch transfers the same block with the same geometry).  The
per-unit device memory contents returned by a gather are an input `dev`
of the model, since they are produced by the external driver. -/

/-- Translation of the `CopyState` coherence state. -/
inductive CopyState
  | CLEAN
  | HOST_DIRTY
  | PIM_FRESH
deriving DecidableEq

/-- State of a `Vector<uint64_t>`: the uniform block, the host-side
buffers (one per unit), the logical length and the coherence state. -/
structure Vector where
  shard_ : Block
  shards_ : List (List ℕ)
  total_ : ℕ
  state_ : CopyState
deriving DecidableEq

/-- The `reset_to_empty()` state. -/
def Vector.emptyV : Vector := ⟨⟨0, 0⟩, [], 0, .HOST_DIRTY⟩

/-- Chunk length of `Vector::build`: `ceil(n/D)` elements, rounded up to
a multiple of 8 elements (`if (chunk_ % 8) chunk_ += 8 - chunk_ % 8`). -/
def chunkLen (n D : ℕ) : ℕ :=
  let c := (n + D - 1) / D
  if c % 8 ≠ 0 then c + (8 - c % 8) else c

/-- Errors thrown by the vector's element access path. -/
inductive VecErr
  | outOfRange
  | noShards
  | shardIdx
  | beyondShard
deriving DecidableEq

/-- Translation of `Vector::build` (part_001 lines 426-454) on a fresh
vector: implicit `PIMManager::init()` with default arguments when the unit
count is zero (`navail` models the unit count the driver then yields),
chunk sizing, uniform allocation and host-buffer fill. -/
def Vector.build (m : PIMManager) (shutdown : Bool) (navail : ℕ) (n fill : ℕ) :
    Except MgrErr (PIMManager × Vector × List Eff) :=
  match (if m.dpu_n_ = 0 then PIMManager.init m shutdown navail "main.dpu" else .ok (m, [])) with
  | .error e => .error e
  | .ok (m1, tr) =>
    if n = 0 then .ok (m1, Vector.emptyV, tr)
    else
      let D := m1.dpu_n_
      let chunk := chunkLen n D
      let bytes_per_chunk := chunk * 8
      let aligned_bytes := (bytes_per_chunk + 7) / 8 * 8
      match m1.allocate_uniform aligned_bytes with
      | .error e => .error e
      | .ok (m2, blk) =>
        .ok (m2, ⟨blk, List.replicate D (List.replicate chunk fill), n, .HOST_DIRTY⟩, tr)

/-- Translation of `Vector::locate` (part_001): uniform chunk/index
resolution with the source's guard chain. -/
def Vector.locate (v : Vector) (i : ℕ) : Except VecErr (ℕ × ℕ) :=
  if i ≥ v.total_ then .error .outOfRange
  else if v.shards_ = [] then .error .noShards
  else
    let eps := (v.shards_.headD []).length
    let s := i / eps
    let idx := i % eps
    if s ≥ v.shards_.length then .error .shardIdx
    else if s = v.shards_.length - 1 ∧ idx ≥ (v.shards_.getD s []).length then
      .error .beyondShard
    else .ok (s, idx)

/-- Translation of `Vector::pull_all` (part_001 lines 488-505, word-type
branch): a no-op unless the state is `PIM_FRESH`, otherwise a single
gather of the common chunk byte size at the block offset, after which the
host buffers hold the device contents `dev` and the state is `CLEAN`. -/
def Vector.pull_all (v : Vector) (m : PIMManager) (dev : List (List ℕ)) :
    Vector × PIMManager × List Eff :=
  if v.state_ ≠ CopyState.PIM_FRESH then (v, m, [])
  else
    let p := m.gather v.shard_.bytes v.shard_.off
    ({ v with shards_ := dev, state_ := CopyState.CLEAN }, p.1, p.2)

/-- Read access through `const operator[]` (part_001 lines 280-285):
`pull_all`, then `locate`, then the element. -/
def Vector.readAt (v : Vector) (m : PIMManager) (dev : List (List ℕ)) (i : ℕ) :
    Except VecErr (ℕ × Vector × PIMManager × List Eff) :=
  let p := v.pull_all m dev
  match p.1.locate i with
  | .error e => .error e
  | .ok (s, idx) => .ok ((p.1.shards_.getD s []).getD idx 0, p.1, p.2.1, p.2.2)

/-- Write access through the non-const `operator[]` (part_001 lines
270-277) followed by assignment of `x`: `pull_all`, `locate`, mark
`HOST_DIRTY` and store. -/
def Vector.writeAt (v : Vector) (m : PIMManager) (dev : List (List ℕ)) (i x : ℕ) :
    Except VecErr (Vector × PIMManager × List Eff) :=
  let p := v.pull_all m dev
  match p.1.locate i with
  | .error e => .error e
  | .ok (s, idx) =>
    .ok ({ p.1 with
            shards_ := p.1.shards_.set s ((p.1.shards_.getD s []).set idx x),
            state_ := CopyState.HOST_DIRTY }, p.2.1, p.2.2)

/-- Translation of `Vector::commit` (part_001, word-type branch): a no-op
unless `HOST_DIRTY`, otherwise one scatter of the host buffers at the
block offset, then `CLEAN`. -/
def Vector.commit (v : Vector) (m : PIMManager) : Vector × PIMManager × List Eff :=
  if v.state_ ≠ CopyState.HOST_DIRTY then (v, m, [])
  else
    let p := m.scatter v.shards_ v.shard_.off
    ({ v with state_ := CopyState.CLEAN }, p.1, p.2)

/-- Translation of `Vector::invalidate_host`. -/
def Vector.invalidate_host (v : Vector) : Vector := { v with state_ := CopyState.PIM_FRESH }

/-- The fold `(bs.commit(), ...)` over the input tuple of `run_kernel`. -/
def commitAll : List Vector → PIMManager → List Vector × PIMManager × List Eff
  | [], m => ([], m, [])
  | v :: rest, m =>
    let p := v.commit m
    let q := commitAll rest p.2.1
    (p.1 :: q.1, q.2.1, p.2.2 ++ q.2.2)

/-- Translation of `run_kernel` (part_001 lines 525-535): commit every
input, broadcast the argument record, execute, invalidate every output. -/
def run_kernel (args : dpu_arguments_t) (ins outs : List Vector) (m : PIMManager) :
    List Vector × List Vector × PIMManager × List Eff :=
  let c := commitAll ins m
  let p1 := PIMManager.push_args c.2.1 args
  let p2 := PIMManager.exec p1.1
  (c.1, outs.map Vector.invalidate_host, p2.1, c.2.2 ++ (p1.2 ++ p2.2))

/-! ### Claims about the manager, the dispatch sequence and the vector -/

theorem ensure_loaded_of_loaded {m : PIMManager} (h : m.loaded_ = true) :
    m.ensure_loaded = (m, []) := by
  unfold PIMManager.ensure_loaded
  simp [h]

theorem commit_spec (v : Vector) (m : PIMManager) (h : m.loaded_ = true) :
    v.commit m =
      ((if v.state_ = CopyState.HOST_DIRTY then { v with state_ := CopyState.CLEAN } else v), m,
        if v.state_ = CopyState.HOST_DIRTY then [Eff.copyToDev v.shard_.off v.shards_] else []) := by
  unfold Vector.commit PIMManager.scatter
  by_cases hd : v.state_ = CopyState.HOST_DIRTY
  · simp [hd, ensure_loaded_of_loaded h]
  · simp [hd]

theorem commitAll_spec (ins : List Vector) (m : PIMManager) (h : m.loaded_ = true) :
    commitAll ins m =
      (ins.map fun v => if v.state_ = CopyState.HOST_DIRTY then { v with state_ := CopyState.CLEAN } else v,
       m,
       (ins.map fun v =>
          if v.state_ = CopyState.HOST_DIRTY then [Eff.copyToDev v.shard_.off v.shards_] else []).flatten) := by
  induction ins with
  | nil => simp [commitAll]
  | cons v rest ih =>
    unfold commitAll
    rw [commit_spec v m h]
    simp only [ih, List.map_cons, List.flatten_cons]

/-- C2: `run_kernel(args, inputs, outputs)` performs exactly commit on
every input (a scatter for each host-dirty input, in input order), then
one broadcast of the fixed-size argument record, then one execution
barrier, then `invalidate_host` on every output — and nothing else. -/
theorem run_kernel_effect_sequence (args : dpu_arguments_t) (ins outs : List Vector)
    (m : PIMManager) (h : m.loaded_ = true) :
    run_kernel args ins outs m =
      (ins.map fun v => if v.state_ = CopyState.HOST_DIRTY then { v with state_ := CopyState.CLEAN } else v,
       outs.map Vector.invalidate_host,
       m,
       (ins.map fun v =>
          if v.state_ = CopyState.HOST_DIRTY then [Eff.copyToDev v.shard_.off v.shards_] else []).flatten
         ++ [Eff.copyArgs args, Eff.execute])
    ∧ ∀ v ∈ (run_kernel args ins outs m).2.1, v.state_ = CopyState.PIM_FRESH := by
  constructor
  · unfold run_kernel PIMManager.push_args PIMManager.exec
    rw [commitAll_spec ins m h]
    simp [ensure_loaded_of_loaded h]
  · intro v hv
    unfold run_kernel at hv
    simp only [List.mem_map] at hv
    obtain ⟨w, _, rfl⟩ := hv
    rfl

/-- Witness for C2: a host-dirty input and a clean output on a loaded
manager. -/
theorem run_kernel_effect_sequence_witness :
    (⟨2, "main.dpu", true, true, []⟩ : PIMManager).loaded_ = true
    ∧ run_kernel dpu_arguments_t.zero [⟨⟨0, 16⟩, [[1, 2]], 2, .HOST_DIRTY⟩]
        [⟨⟨16, 16⟩, [[0, 0]], 2, .CLEAN⟩] ⟨2, "main.dpu", true, true, []⟩ =
      ([⟨⟨0, 16⟩, [[1, 2]], 2, .CLEAN⟩], [⟨⟨16, 16⟩, [[0, 0]], 2, .PIM_FRESH⟩],
        ⟨2, "main.dpu", true, true, []⟩,
        [Eff.copyToDev 0 [[1, 2]], Eff.copyArgs dpu_arguments_t.zero, Eff.execute]) :=
  ⟨rfl, by
    have h := (run_kernel_effect_sequence dpu_arguments_t.zero
      [⟨⟨0, 16⟩, [[1, 2]], 2, .HOST_DIRTY⟩] [⟨⟨16, 16⟩, [[0, 0]], 2, .CLEAN⟩]
      ⟨2, "main.dpu", true, true, []⟩ rfl).1
    simpa using h⟩

/-- C4 counterexample: the pim_manager.hpp `scatter` performs no
buffer-count check — with three buffers and two active units it issues
the device transfer and reports no size-mismatch error. -/
theorem pimmanager_scatter_no_size_check :
    PIMManager.scatter ⟨2, "main.dpu", true, true, []⟩ [[1], [2], [3]] 0
      = (⟨2, "main.dpu", true, true, []⟩, [Eff.copyToDev 0 [[1], [2], [3]]]) := rfl

/-- C4 amended: the host.hpp `scatter` rejects a buffer count different
from the unit count with a size-mismatch error before any data transfer
(at most the lazy program load precedes the throw). -/
theorem hosthpp_scatter_size_mismatch_fails (m : PIMManager) (bufs : List (List ℕ)) (off : ℕ)
    (h : bufs.length ≠ m.dpu_n_) :
    ∃ m2 t, PIMManager.scatter_hosthpp m bufs off = .error (m2, t, MgrErr.sizeMismatch)
      ∧ ∀ e ∈ t, ∀ o bs, e ≠ Eff.copyToDev o bs := by
  have hn : (m.ensure_loaded).1.dpu_n_ = m.dpu_n_ := by
    unfold PIMManager.ensure_loaded
    split <;> rfl
  refine ⟨(m.ensure_loaded).1, (m.ensure_loaded).2, ?_, ?_⟩
  · show (if bufs.length ≠ (m.ensure_loaded).1.dpu_n_
          then (Except.error ((m.ensure_loaded).1, (m.ensure_loaded).2, MgrErr.sizeMismatch)
            : Except (PIMManager × List Eff × MgrErr) (PIMManager × List Eff))
          else Except.ok ((m.ensure_loaded).1, (m.ensure_loaded).2 ++ [Eff.copyToDev off bufs]))
        = Except.error ((m.ensure_loaded).1, (m.ensure_loaded).2, MgrErr.sizeMismatch)
    rw [if_pos (by rw [hn]; exact h)]
  · intro e he o bs
    revert he
    unfold PIMManager.ensure_loaded
    split
    · intro he
      rcases List.mem_singleton.mp he with rfl
      simp
    · intro he
      cases he

/-- Witness for C4's amended statement: three buffers on a two-unit
manager. -/
theorem hosthpp_scatter_size_mismatch_witness :
    ([[], [], []] : List (List ℕ)).length ≠ (⟨2, "", true, true, []⟩ : PIMManager).dpu_n_
    ∧ ∃ m2 t, PIMManager.scatter_hosthpp ⟨2, "", true, true, []⟩ [[], [], []] 0
        = .error (m2, t, MgrErr.sizeMismatch)
      ∧ ∀ e ∈ t, ∀ o bs, e ≠ Eff.copyToDev o bs :=
  ⟨by decide, hosthpp_scatter_size_mismatch_fails ⟨2, "", true, true, []⟩ [[], [], []] 0
    (by decide)⟩

/-- C5 counterexample: `init` itself already loads the program — after
`init` returns, with no exec/push_args/scatter/gather call issued yet, the
load has happened and the loaded flag is set. -/
theorem init_loads_program_eagerly :
    PIMManager.init PIMManager.fresh false 2 "main.dpu"
      = .ok (⟨2, "main.dpu", true, true, List.replicate 2 MramAllocator.new⟩,
             [Eff.load "main.dpu"]) := rfl

/-- C5 amended: `init` with a nonempty program path performs the single
program load itself (via the `ensure_loaded()` call at its end);
subsequent exec/push_args/scatter/gather calls find the loaded flag set
and never load again. -/
theorem program_loaded_once_during_init (m : PIMManager) (navail : ℕ) (elf : String)
    (hinit : m.initialised_ = false) (hload : m.loaded_ = false)
    (hnav : 0 < navail) (helf : elf ≠ "") :
    ∃ m2, PIMManager.init m false navail elf = .ok (m2, [Eff.load elf])
      ∧ m2.loaded_ = true
      ∧ (∀ bufs off, (PIMManager.scatter m2 bufs off).2 = [Eff.copyToDev off bufs])
      ∧ (∀ bytes off, (PIMManager.gather m2 bytes off).2 = [Eff.copyFromDev off bytes])
      ∧ (∀ args, (PIMManager.push_args m2 args).2 = [Eff.copyArgs args])
      ∧ (PIMManager.exec m2).2 = [Eff.execute] := by
  refine ⟨⟨navail, elf, true, true, List.replicate navail MramAllocator.new⟩, ?_, rfl, ?_, ?_,
    ?_, ?_⟩
  · unfold PIMManager.init PIMManager.ensure_loaded
    simp [hinit, hload, Nat.pos_iff_ne_zero.mp hnav, helf]
  · intro bufs off
    unfold PIMManager.scatter
    rw [ensure_loaded_of_loaded rfl]
    rfl
  · intro bytes off
    unfold PIMManager.gather
    rw [ensure_loaded_of_loaded rfl]
    rfl
  · intro args
    unfold PIMManager.push_args
    rw [ensure_loaded_of_loaded rfl]
    rfl
  · unfold PIMManager.exec
    rw [ensure_loaded_of_loaded rfl]
    rfl


/-- Witness for C5's amended statement. -/
theorem program_loaded_once_witness :
    (PIMManager.fresh.initialised_ = false ∧ PIMManager.fresh.loaded_ = false ∧ 0 < 2
      ∧ ("main.dpu" : String) ≠ "")
    ∧ ∃ m2, PIMManager.init PIMManager.fresh false 2 "main.dpu" = .ok (m2, [Eff.load "main.dpu"])
      ∧ m2.loaded_ = true
      ∧ (∀ bufs off, (PIMManager.scatter m2 bufs off).2 = [Eff.copyToDev off bufs])
      ∧ (∀ bytes off, (PIMManager.gather m2 bytes off).2 = [Eff.copyFromDev off bytes])
      ∧ (∀ args, (PIMManager.push_args m2 args).2 = [Eff.copyArgs args])
      ∧ (PIMManager.exec m2).2 = [Eff.execute] :=
  ⟨⟨rfl, rfl, by decide, by decide⟩,
    program_loaded_once_during_init PIMManager.fresh 2 "main.dpu" rfl rfl (by decide) (by decide)⟩

/-- C9: element access on a `PIM_FRESH` (device-fresh) vector first
issues exactly one gather of the common chunk byte size at the block
offset and sets the state to `CLEAN`; a write access additionally leaves
the whole vector `HOST_DIRTY`. -/
theorem access_pulls_device_fresh (v : Vector) (m : PIMManager) (dev : List (List ℕ))
    (c i x : ℕ)
    (hm : m.loaded_ = true)
    (hfresh : v.state_ = CopyState.PIM_FRESH)
    (hchunks : ∀ ch ∈ dev, ch.length = c) (hc : 0 < c)
    (hi : i < v.total_) (htot : v.total_ ≤ dev.length * c) :
    Vector.readAt v m dev i =
      .ok ((dev.getD (i / c) []).getD (i % c) 0,
        { v with shards_ := dev, state_ := CopyState.CLEAN }, m,
        [Eff.copyFromDev v.shard_.off v.shard_.bytes])
    ∧ Vector.writeAt v m dev i x =
      .ok ((⟨v.shard_, dev.set (i / c) ((dev.getD (i / c) []).set (i % c) x), v.total_,
          CopyState.HOST_DIRTY⟩ : Vector), m,
        [Eff.copyFromDev v.shard_.off v.shard_.bytes]) := by
  have hlen0 : 0 < dev.length := by
    by_cases h0 : dev.length = 0
    · rw [h0] at htot
      omega
    · exact Nat.pos_of_ne_zero h0
  have hpull : v.pull_all m dev =
      ({ v with shards_ := dev, state_ := CopyState.CLEAN }, m,
        [Eff.copyFromDev v.shard_.off v.shard_.bytes]) := by
    unfold Vector.pull_all PIMManager.gather
    rw [ensure_loaded_of_loaded hm]
    simp [hfresh]
  have hsl : i / c < dev.length :=
    Nat.div_lt_of_lt_mul (Nat.mul_comm dev.length c ▸ Nat.lt_of_lt_of_le hi htot)
  have hgetD : (dev.getD (i / c) []).length = c := by
    have hmem : dev.getD (i / c) [] ∈ dev := by
      rw [List.getD_eq_getElem dev [] hsl]
      exact List.getElem_mem hsl
    exact hchunks _ hmem
  have hlocate : Vector.locate { v with shards_ := dev, state_ := CopyState.CLEAN } i
      = .ok (i / c, i % c) := by
    unfold Vector.locate
    have hne : dev ≠ [] := List.ne_nil_of_length_pos hlen0
    have heps : (dev.headD []).length = c := by
      cases dev with
      | nil => cases hne rfl
      | cons d0 rest => exact hchunks d0 (List.mem_cons_self _ _)
    simp only [heps]
    rw [if_neg (by omega : ¬ i ≥ v.total_), if_neg (by simpa using hne),
      if_neg (by omega : ¬ i / c ≥ dev.length), if_neg ?_]
    intro hand
    have := hand.2
    have : i % c < c := Nat.mod_lt _ hc
    omega
  constructor
  · unfold Vector.readAt
    rw [hpull]
    simp only [hlocate]
  · unfold Vector.writeAt
    rw [hpull]
    simp only [hlocate]

/-- Witness for C9: device-fresh two-unit vector of six elements, chunks
of four words. -/
theorem access_pulls_device_fresh_witness :
    ((⟨2, "main.dpu", true, true, []⟩ : PIMManager).loaded_ = true
      ∧ (⟨⟨0, 32⟩, [[9, 9, 9, 9], [9, 9, 9, 9]], 6, .PIM_FRESH⟩ : Vector).state_
          = CopyState.PIM_FRESH
      ∧ (5 : ℕ) < (⟨⟨0, 32⟩, [[9, 9, 9, 9], [9, 9, 9, 9]], 6, .PIM_FRESH⟩ : Vector).total_)
    ∧ Vector.readAt ⟨⟨0, 32⟩, [[9, 9, 9, 9], [9, 9, 9, 9]], 6, .PIM_FRESH⟩
        ⟨2, "main.dpu", true, true, []⟩ [[1, 2, 3, 4], [5, 6, 7, 8]] 5 =
      .ok (([[1, 2, 3, 4], [5, 6, 7, 8]].getD (5 / 4) []).getD (5 % 4) 0,
        ⟨⟨0, 32⟩, [[1, 2, 3, 4], [5, 6, 7, 8]], 6, .CLEAN⟩,
        ⟨2, "main.dpu", true, true, []⟩, [Eff.copyFromDev 0 32])
    ∧ Vector.writeAt ⟨⟨0, 32⟩, [[9, 9, 9, 9], [9, 9, 9, 9]], 6, .PIM_FRESH⟩
        ⟨2, "main.dpu", true, true, []⟩ [[1, 2, 3, 4], [5, 6, 7, 8]] 5 77 =
      .ok (⟨⟨0, 32⟩,
            ([[1, 2, 3, 4], [5, 6, 7, 8]].set (5 / 4)
              (([[1, 2, 3, 4], [5, 6, 7, 8]].getD (5 / 4) []).set (5 % 4) 77)),
            6, .HOST_DIRTY⟩,
        ⟨2, "main.dpu", true, true, []⟩, [Eff.copyFromDev 0 32]) :=
  ⟨⟨rfl, rfl, by decide⟩,
    (access_pulls_device_fresh ⟨⟨0, 32⟩, [[9, 9, 9, 9], [9, 9, 9, 9]], 6, .PIM_FRESH⟩
      ⟨2, "main.dpu", true, true, []⟩ [[1, 2, 3, 4], [5, 6, 7, 8]] 4 5 77 rfl rfl
      (by decide) (by decide) (by decide) (by decide)).1,
    (access_pulls_device_fresh ⟨⟨0, 32⟩, [[9, 9, 9, 9], [9, 9, 9, 9]], 6, .PIM_FRESH⟩
      ⟨2, "main.dpu", true, true, []⟩ [[1, 2, 3, 4], [5, 6, 7, 8]] 4 5 77 rfl rfl
      (by decide) (by decide) (by decide) (by decide)).2⟩

theorem align_up_mod8 (x : ℕ) : align_up x 8 % 8 = 0 := by
  unfold align_up
  omega

theorem alloc_fresh (bytes : ℕ) (h : align_up bytes 8 ≤ 64 * 2 ^ 20) :
    MramAllocator.alloc MramAllocator.new bytes
      = .ok (⟨align_up bytes 8, 64 * 2 ^ 20, []⟩, 0) := by
  unfold MramAllocator.alloc MramAllocator.new fmFirstFit
  simp only []
  rw [if_neg (by omega), if_neg (by omega)]
  simp

theorem allocAll_replicate (k bytes : ℕ) (h : align_up bytes 8 ≤ 64 * 2 ^ 20) :
    allocAll (List.replicate k MramAllocator.new) bytes
      = .ok (List.replicate k ⟨align_up bytes 8, 64 * 2 ^ 20, []⟩) := by
  induction k with
  | zero => rfl
  | succ k ih =>
    rw [List.replicate_succ]
    unfold allocAll
    rw [alloc_fresh bytes h, ih, List.replicate_succ]

theorem allocate_uniform_fresh (m : PIMManager) (k bytes : ℕ)
    (halloc : m.alloc_ = List.replicate (k + 1) MramAllocator.new)
    (h : align_up bytes 8 ≤ 64 * 2 ^ 20) :
    m.allocate_uniform bytes
      = .ok ({ m with alloc_ := List.replicate (k + 1) ⟨align_up bytes 8, 64 * 2 ^ 20, []⟩ },
             ⟨0, align_up bytes 8⟩) := by
  have hid : align_up (align_up bytes 8) 8 = align_up bytes 8 := align_up_self (align_up_mod8 _)
  unfold PIMManager.allocate_uniform
  rw [halloc, List.replicate_succ]
  simp only []
  rw [alloc_fresh (align_up bytes 8) (by rw [hid]; exact h),
    allocAll_replicate k (align_up bytes 8) (by rw [hid]; exact h), hid, List.replicate_succ]

/-- C10: building a vector while the manager singleton is uninitialised
(zero active units) raises no error — the build path itself initialises
the manager with the default unit request and the default program path
"main.dpu" (which `init` then loads), and only afterwards performs the
shard allocation. -/
theorem build_implicit_init (m : PIMManager) (navail n fill : ℕ)
    (hdpu : m.dpu_n_ = 0) (hinit : m.initialised_ = false) (hload : m.loaded_ = false)
    (hnav : 0 < navail) (hn : 0 < n)
    (hfit : chunkLen n navail * 8 ≤ 64 * 2 ^ 20) :
    ∃ m2 v, Vector.build m false navail n fill = .ok (m2, v, [Eff.load "main.dpu"])
      ∧ m2.initialised_ = true ∧ m2.elf_path_ = "main.dpu" ∧ m2.dpu_n_ = navail
      ∧ m2.loaded_ = true ∧ v.total_ = n
      ∧ v.shard_ = ⟨0, chunkLen n navail * 8⟩
      ∧ v.shards_.length = navail := by
  obtain ⟨k, rfl⟩ : ∃ k, navail = k + 1 := ⟨navail - 1, by omega⟩
  have hinitEq : PIMManager.init m false (k + 1) "main.dpu"
      = .ok (⟨k + 1, "main.dpu", true, true, List.replicate (k + 1) MramAllocator.new⟩,
             [Eff.load "main.dpu"]) := by
    unfold PIMManager.init PIMManager.ensure_loaded
    simp [hinit, hload]
  have hal8 : (chunkLen n (k + 1) * 8) % 8 = 0 := Nat.mul_mod_left _ 8
  have haligned : (chunkLen n (k + 1) * 8 + 7) / 8 * 8 = chunkLen n (k + 1) * 8 := by
    omega
  have hallocEq := allocate_uniform_fresh
    (⟨k + 1, "main.dpu", true, true, List.replicate (k + 1) MramAllocator.new⟩ : PIMManager)
    k (chunkLen n (k + 1) * 8) rfl (by rw [align_up_self hal8]; exact hfit)
  rw [align_up_self hal8] at hallocEq
  refine ⟨⟨k + 1, "main.dpu", true, true,
      List.replicate (k + 1) ⟨chunkLen n (k + 1) * 8, 64 * 2 ^ 20, []⟩⟩,
    ⟨⟨0, chunkLen n (k + 1) * 8⟩,
      List.replicate (k + 1) (List.replicate (chunkLen n (k + 1)) fill), n, .HOST_DIRTY⟩,
    ?_, rfl, rfl, rfl, rfl, rfl, rfl, List.length_replicate _ _⟩
  unfold Vector.build
  rw [if_pos hdpu, hinitEq]
  simp only []
  rw [if_neg (by omega)]
  simp only [haligned]
  rw [hallocEq]

/-- Witness for C10: fresh manager, two units available, eight elements. -/
theorem build_implicit_init_witness :
    (PIMManager.fresh.dpu_n_ = 0 ∧ chunkLen 8 2 * 8 ≤ 64 * 2 ^ 20)
    ∧ ∃ m2 v, Vector.build PIMManager.fresh false 2 8 0 = .ok (m2, v, [Eff.load "main.dpu"])
      ∧ m2.initialised_ = true ∧ m2.elf_path_ = "main.dpu" ∧ m2.dpu_n_ = 2
      ∧ m2.loaded_ = true ∧ v.total_ = 8
      ∧ v.shard_ = ⟨0, chunkLen 8 2 * 8⟩
      ∧ v.shards_.length = 2 :=
  ⟨⟨rfl, by decide⟩,
    build_implicit_init PIMManager.fresh 2 8 0 rfl rfl rfl (by decide) (by decide) (by decide)⟩

theorem allocate_uniform_preserves_dpu (m : PIMManager) (b : ℕ) (m2 : PIMManager) (blk : Block)
    (h : m.allocate_uniform b = .ok (m2, blk)) : m2.dpu_n_ = m.dpu_n_ := by
  unfold PIMManager.allocate_uniform at h
  revert h
  cases m.alloc_ with
  | nil => intro h; cases h
  | cons a0 rest =>
    simp only []
    cases MramAllocator.alloc a0 (align_up b 8) with
    | error e => intro h; cases h
    | ok p =>
      simp only []
      cases allocAll rest (align_up b 8) with
      | error e => intro h; cases h
      | ok rest2 =>
        intro h
        cases h
        rfl

theorem chunkLen_eq_align (n D : ℕ) : chunkLen n D = align_up ((n + D - 1) / D) 8 := by
  unfold chunkLen align_up
  by_cases h : (n + D - 1) / D % 8 = 0 <;> simp [h] <;> omega

/-- C8 (amended): after a successful build of `n > 0` elements on `D ≥ 1`
active units, every chunk has length `ceil(n/D)` rounded up to the 8-word
element alignment (hence within one alignment unit of `ceil(n/D)`), the
chunk lengths sum to at least `n`, and every position — in particular
every position beyond `n` — holds the fill value. -/
theorem build_chunk_partition (m : PIMManager) (sh : Bool) (navail n fill : ℕ)
    (m2 : PIMManager) (v : Vector) (tr : List Eff)
    (hn : 0 < n) (hD : 0 < m2.dpu_n_)
    (hok : Vector.build m sh navail n fill = .ok (m2, v, tr)) :
    v.shards_.length = m2.dpu_n_
    ∧ (∀ ch ∈ v.shards_, ch.length = chunkLen n m2.dpu_n_)
    ∧ chunkLen n m2.dpu_n_ = align_up ((n + m2.dpu_n_ - 1) / m2.dpu_n_) 8
    ∧ chunkLen n m2.dpu_n_ < (n + m2.dpu_n_ - 1) / m2.dpu_n_ + 8
    ∧ n ≤ m2.dpu_n_ * chunkLen n m2.dpu_n_
    ∧ ∀ ch ∈ v.shards_, ∀ y ∈ ch, y = fill := by
  unfold Vector.build at hok
  revert hok
  cases hstep : (if m.dpu_n_ = 0 then PIMManager.init m sh navail "main.dpu"
      else .ok (m, [])) with
  | error e => intro hok; cases hok
  | ok p =>
    obtain ⟨m1, tr1⟩ := p
    simp only []
    rw [if_neg (by omega : ¬ n = 0)]
    cases halloc : m1.allocate_uniform ((chunkLen n m1.dpu_n_ * 8 + 7) / 8 * 8) with
    | error e => intro hok; cases hok
    | ok q =>
      obtain ⟨m2b, blk⟩ := q
      intro hok
      rw [Except.ok.injEq, Prod.mk.injEq, Prod.mk.injEq] at hok
      obtain ⟨hm2, hv, -⟩ := hok
      subst hm2
      subst hv
      have hdpu : m2b.dpu_n_ = m1.dpu_n_ :=
        allocate_uniform_preserves_dpu m1 _ m2b blk halloc
      rw [hdpu] at hD ⊢
      set D := m1.dpu_n_
      set c := (n + D - 1) / D with hc
      obtain ⟨q0, r0, hqr, hr0⟩ : ∃ q0 r0, D * q0 + r0 = n + D - 1 ∧ r0 < D :=
        ⟨(n + D - 1) / D, (n + D - 1) % D, Nat.div_add_mod _ _, Nat.mod_lt _ hD⟩
      have hceil : n ≤ D * c := by
        have hcq : c = q0 := by
          rw [hc, ← hqr]
          rw [Nat.mul_add_div hD, Nat.div_eq_of_lt hr0]
          omega
        rw [hcq]
        omega
      have hchunk_ge : c ≤ chunkLen n D := by
        unfold chunkLen
        by_cases h : c % 8 = 0 <;> simp [← hc, h] <;> omega
      refine ⟨List.length_replicate _ _, ?_, chunkLen_eq_align n D, ?_, ?_, ?_⟩
      · intro ch hch
        rw [List.eq_of_mem_replicate hch]
        exact List.length_replicate _ _
      · unfold chunkLen
        by_cases h : c % 8 = 0 <;> simp [← hc, h] <;> omega
      · calc n ≤ D * c := hceil
          _ ≤ D * chunkLen n D := Nat.mul_le_mul_left _ hchunk_ge
      · intro ch hch y hy
        rw [List.eq_of_mem_replicate hch] at hy
        exact List.eq_of_mem_replicate hy

/-- C8 counterexample: `Vector::build` fills whole chunks with the fill
value, so for a resize/build with fill 5 of 3 elements over 2 units
(chunk length 8), position 3 — beyond the logical total — holds 5, not
zero as the claim's "zero-padded" requires. -/
theorem build_padding_holds_fill_not_zero :
    Vector.build ⟨2, "main.dpu", true, true, [MramAllocator.new, MramAllocator.new]⟩ false 2 3 5
      = .ok (⟨2, "main.dpu", true, true, [⟨64, 64 * 2 ^ 20, []⟩, ⟨64, 64 * 2 ^ 20, []⟩]⟩,
          ⟨⟨0, 64⟩, List.replicate 2 (List.replicate 8 5), 3, .HOST_DIRTY⟩, [])
    ∧ ((List.replicate 2 (List.replicate 8 5) : List (List ℕ)).headD []).getD 3 0 = 5
    ∧ (5 : ℕ) ≠ 0 :=
  ⟨rfl, by decide, by decide⟩

/-- Witness for C8's amended statement at the same concrete build. -/
theorem build_chunk_partition_witness :
    (0 < 3 ∧ 0 < (⟨2, "main.dpu", true, true, [⟨64, 64 * 2 ^ 20, []⟩, ⟨64, 64 * 2 ^ 20, []⟩]⟩
        : PIMManager).dpu_n_)
    ∧ ((⟨⟨0, 64⟩, List.replicate 2 (List.replicate 8 5), 3, .HOST_DIRTY⟩ : Vector).shards_.length
        = 2
      ∧ (∀ ch ∈ (⟨⟨0, 64⟩, List.replicate 2 (List.replicate 8 5), 3, .HOST_DIRTY⟩
            : Vector).shards_, ch.length = chunkLen 3 2)
      ∧ chunkLen 3 2 = align_up ((3 + 2 - 1) / 2) 8
      ∧ chunkLen 3 2 < (3 + 2 - 1) / 2 + 8
      ∧ 3 ≤ 2 * chunkLen 3 2
      ∧ ∀ ch ∈ (⟨⟨0, 64⟩, List.replicate 2 (List.replicate 8 5), 3, .HOST_DIRTY⟩
            : Vector).shards_, ∀ y ∈ ch, y = 5) :=
  ⟨⟨by decide, by decide⟩, by
    have h := build_chunk_partition
      ⟨2, "main.dpu", true, true, [MramAllocator.new, MramAllocator.new]⟩ false 2 3 5
      ⟨2, "main.dpu", true, true, [⟨64, 64 * 2 ^ 20, []⟩, ⟨64, 64 * 2 ^ 20, []⟩]⟩
      ⟨⟨0, 64⟩, List.replicate 2 (List.replicate 8 5), 3, .HOST_DIRTY⟩ [] (by decide) (by decide)
      rfl
    exact h⟩

/-! ## Distributed NTT orchestrator
(src/third-party/pim-hexl/src/host/ntt.hpp and the device stage kernel
src/third-party/pim-hexl/src/dpu/ntt/ntt-stage.h)

The data pipeline is modelled on the logical array of values; the
coherence machinery (commit/pull) is value-preserving, so the list of
element values after each phase is the observable state.  The stage
kernel is instantiated for a single active unit (`D = 1`, the
configuration of the repository's own round-trip test, part_008), where
the unit's chunk is the whole array and the host cross-shard exchange
loop is empty; blocks of `2*span` elements fit one WRAM chunk
(`2*span <= CHUNK_ELEMS`) at the evaluated sizes, so the in-chunk
butterfly loop covers each block exactly. -/

/-- `std::swap(vec[i], vec[j])` on the host list. -/
def swapAt (l : List ℕ) (i j : ℕ) : List ℕ :=
  let xi := l.getD i 0
  let xj := l.getD j 0
  (l.set i xj).set j xi

/-- Translation of the host `bit_reverse` loop of ntt.hpp: swap `i` with
`bitrev(i, log2 N)` whenever the reversed index is larger. -/
def bit_reverse (v : List ℕ) : List ℕ :=
  let N := v.length
  let logN := ilog2 N
  (List.range N).foldl
    (fun acc i =>
      let j := bitrev i logN
      if j > i then swapAt acc i j else acc)
    v

/-- One butterfly of the device stage kernel at indices `x`, `y = x ^ span`
with twiddle `w`, including the `inv && last` rescaling by `ninv`. -/
def nttPair (q w ninv : ℕ) (scale : Bool) (a : List ℕ) (x y : ℕ) : List ℕ :=
  let u := a.getD x 0
  let v := a.getD y 0
  let p := butterfly_u64 u v w q
  let p2 := if scale then (mul_mod_u64 p.1 ninv q, mul_mod_u64 p.2 ninv q) else p
  (a.set x p2.1).set y p2.2

/-- Translation of `ntt_stage_kernel` (dpu/ntt/ntt-stage.h) on one unit's
region: tasklets jointly process every block of `2*span` elements; within
a block the butterflies pair `x` with `x ^ span` for `x < span`, with
twiddle index `(x & (span-1)) * step` — written `x % span` since `span`
is a power of two. -/
def ntt_stage (A W : List ℕ) (q span step ninv : ℕ) (inv last : Bool) : List ℕ :=
  (List.range (A.length / (2 * span))).foldl
    (fun acc blk =>
      (List.range span).foldl
        (fun acc2 j =>
          let x := blk * (2 * span) + j
          let w := W.getD (j % span * step) 0
          nttPair q w ninv (inv && last) acc2 x (x + span))
        acc)
    A

/-- Translation of `launch_stage` of ntt.hpp: `step = N / (2*span)`,
`scalar(0)` ("do final scaling on host"), then the stage kernel. -/
def launch_stage (data W : List ℕ) (mod span : ℕ) (inverse last : Bool) : List ℕ :=
  let step := data.length / (2 * span)
  ntt_stage data W mod span step 0 inverse last

/-- The stage loops of `distributed_ntt`: span doubling from 1, `last` on
the final stage; the span schedule does not depend on the direction. -/
def nttStages (v W : List ℕ) (mod : ℕ) (inverse : Bool) (logN : ℕ) : List ℕ :=
  (List.range logN).foldl
    (fun acc s => launch_stage acc W mod (2 ^ s) inverse (s + 1 == logN))
    v

/-- Translation of `distributed_ntt` of ntt.hpp for one active unit:
forward = host bit-reversal then the stages; inverse = the stages (same
ascending span order), then host bit-reversal and host scaling of every
element by `inverse_mod_u64(N, mod)`. -/
def distributed_ntt1 (vec W : List ℕ) (mod : ℕ) (inverse : Bool) : List ℕ :=
  let N := vec.length
  let logN := ilog2 N
  if inverse then
    let v2 := nttStages vec W mod true logN
    let v3 := bit_reverse v2
    let invN := inverse_mod_u64 N mod
    v3.map fun x => mul_mod_u64 x invN mod
  else nttStages (bit_reverse vec) W mod false logN

/-- Span values passed to `launch_stage` by one loop of
`distributed_ntt`, starting at `span` for `cnt` stages (span doubles). -/
def spansLoop (span : ℕ) : ℕ → List ℕ
  | 0 => []
  | c + 1 => span :: spansLoop (2 * span) c

/-- The sequence of span arguments `distributed_ntt` passes to
`launch_stage`, in source order: the intra-shard loop (`s < logL`)
followed by the cross-shard loop (`logL <= s < logN`).  The parameter
`inverse` is unused because neither loop of the source consults the
direction. -/
def distributed_ntt_spans (N D : ℕ) (inverse : Bool) : List ℕ :=
  let logN := ilog2 N
  let logL := ilog2 (N / D)
  spansLoop 1 logL ++ spansLoop (2 ^ logL) (logN - logL)

/-- The zero-initialisation loop of `replicated_twiddles`:
`for (i < D) W[i*D] = 0`. -/
def twiddleInitLoop (W : List ℕ) (D : ℕ) : List ℕ :=
  (List.range D).foldl (fun acc i => acc.set (i * D) 0) W

/-- The fill loop of `replicated_twiddles` for one table: for
`k = 1 .. N-1`, write `mul_mod_u64(W[k-1], om, q)` to index `k*D` (the
inner loop over units repeats the same write `D` times). -/
def twiddleFillLoop (q om D : ℕ) : List ℕ → ℕ → ℕ → List ℕ
  | W, _, 0 => W
  | W, k, c + 1 =>
    twiddleFillLoop q om D (W.set (k * D) (mul_mod_u64 (W.getD (k - 1) 0) om q)) (k + 1) c

/-- One table of `replicated_twiddles` (ntt.hpp lines 21-50): a vector of
`N*D` zero-initialised words, the `W[i*D] = 0` loop, then the fill loop
with multiplier `om`. -/
def replicated_twiddles_T (N D q om : ℕ) : List ℕ :=
  twiddleFillLoop q om D (twiddleInitLoop (List.replicate (N * D) 0) D) 1 (N - 1)

/-- The forward table `W` of `replicated_twiddles`
(multiplier `omega = find_root(N, mod)`). -/
def replicated_twiddles_W (N D q : ℕ) : List ℕ :=
  replicated_twiddles_T N D q (find_root N q)

/-- The inverse table `W_inv` of `replicated_twiddles`
(multiplier `pow_mod_u64(omega, N-1, mod)`). -/
def replicated_twiddles_Winv (N D q : ℕ) : List ℕ :=
  replicated_twiddles_T N D q (pow_mod_u64 (find_root N q) (N - 1) q)

theorem mul_mod_u64_zero (b m : ℕ) : mul_mod_u64 0 b m = 0 := rfl

theorem set_replicate_self (c : ℕ) : ∀ (n i : ℕ), (List.replicate n c).set i c = List.replicate n c := by
  intro n
  induction n with
  | zero => intro i; rfl
  | succ n ih =>
    intro i
    cases i with
    | zero => rfl
    | succ i =>
      rw [List.replicate_succ, List.set_cons_succ, ih, ← List.replicate_succ]

theorem getD_replicate_zero : ∀ (n j : ℕ), (List.replicate n (0 : ℕ)).getD j 0 = 0 := by
  intro n
  induction n with
  | zero => intro j; cases j <;> rfl
  | succ n ih =>
    intro j
    cases j with
    | zero => rfl
    | succ j => rw [List.replicate_succ]; exact ih j

theorem twiddleInitLoop_zero (D n : ℕ) :
    twiddleInitLoop (List.replicate n 0) D = List.replicate n 0 := by
  unfold twiddleInitLoop
  generalize List.range D = l
  induction l with
  | nil => rfl
  | cons a t ih => rw [List.foldl_cons, set_replicate_self]; exact ih

theorem twiddleFillLoop_zero (q om D n : ℕ) :
    ∀ c k, twiddleFillLoop q om D (List.replicate n 0) k c = List.replicate n 0 := by
  intro c
  induction c with
  | zero => intro k; rfl
  | succ c ih =>
    intro k
    unfold twiddleFillLoop
    rw [getD_replicate_zero, mul_mod_u64_zero, set_replicate_self]
    exact ih (k + 1)

/-- Every entry of every table built by `replicated_twiddles` is zero:
the tables are initialised with `W[0] = 0` (not 1) and each later entry is
a modular product with an entry that is still zero. -/
theorem replicated_twiddles_all_zero (N D q om : ℕ) :
    replicated_twiddles_T N D q om = List.replicate (N * D) 0 := by
  unfold replicated_twiddles_T
  rw [twiddleInitLoop_zero, twiddleFillLoop_zero]

/-- C1 (code-bug evaluation): with the twiddle tables actually produced
by `replicated_twiddles(4, 5)` (all zero — see
`replicated_twiddles_all_zero`), the forward-then-inverse
`distributed_ntt` round trip on one unit maps `[0, 1, 0, 0]` to
`[0, 0, 0, 0]`, not back to itself; every zero-twiddle butterfly maps
`(x, y)` to `(x, x)`, destroying the data. -/
theorem ntt_roundtrip_fails_on_zero_twiddles :
    replicated_twiddles_W 4 1 5 = [0, 0, 0, 0]
    ∧ replicated_twiddles_Winv 4 1 5 = [0, 0, 0, 0]
    ∧ distributed_ntt1 (distributed_ntt1 [0, 1, 0, 0] (replicated_twiddles_W 4 1 5) 5 false)
        (replicated_twiddles_Winv 4 1 5) 5 true = [0, 0, 0, 0]
    ∧ ([0, 0, 0, 0] : List ℕ) ≠ [0, 1, 0, 0] := by
  exact ⟨rfl, rfl, by decide, by decide⟩

/-- C3 (code-bug evaluation): the inverse direction of `distributed_ntt`
launches its stages with the same ascending span schedule as the forward
direction (the stage loops never consult the direction), not the opposite
order; at `N = 4`, `D = 1` the inverse schedule is `[1, 2]`, identical to
the forward schedule and different from its reverse `[2, 1]`.  The
remaining parts of the claim hold: `distributed_ntt1 _ _ _ true` performs
no bit-reversal before its stages and applies bit-reversal plus the
`N⁻¹ mod q` scaling host-side after the last stage (see its defining
equation). -/
theorem inverse_stage_span_order_not_reversed :
    distributed_ntt_spans 4 1 true = [1, 2]
    ∧ distributed_ntt_spans 4 1 true = distributed_ntt_spans 4 1 false
    ∧ distributed_ntt_spans 4 1 true ≠ (distributed_ntt_spans 4 1 false).reverse := by
  exact ⟨rfl, rfl, by decide⟩

end OpenFHEPim
